import Mathlib

/-!
# Azula e-commerce frontend: the `localStorageObj` storage adapter

A shallow embedding of `src/frontend/src/models/localStorage.js`.

The adapter is eight small methods over three platform services: the browser's
`localStorage` (a string-to-string store), `JSON.stringify` and `JSON.parse`, plus the
JavaScript operators `||`, `+`, `-`, `!==` and the truthiness test of `?:`.
The platform services are modelled first, then the eight methods are transcribed
one for one.

The platform part:

* numbers are IEEE 754 doubles: finite ones as sign, mantissa and exponent, the two
  infinities and `NaN`; sums and differences are the exact result rounded to nearest,
  ties to even; `Number::toString` writes the shortest decimal that reads back;
* strings are sequences of Unicode scalar values, so lone surrogates are outside the
  fragment (an escaped surrogate pair is read as its character);
* an object is its list of properties in the order written; the reordering of
  integer-like property names is not modelled;
* the store has no quota: a write never fails;
* functions and symbols are not values of the fragment.

A method that throws leaves the store as it is at the throw, so every mutating method
returns an outcome: the value or the error, and the store.
-/

namespace Azula

/-! ## Numbers: IEEE 754 binary64 -/

/-- A finite double: `(-1)^neg * m * 2^e`. The canonical form has `m < 2^53`,
`-1074 ≤ e ≤ 971` and `2^52 ≤ m` unless `e = -1074` (zero and the subnormals). -/
structure F64 where
  neg : Bool
  m : Nat
  e : Int
  deriving DecidableEq, Repr

/-- Number of binary digits of `n`. -/
def bitLenAux : Nat → Nat → Nat
  | 0, _ => 0
  | fuel + 1, n =>
    if n = 0 then 0
    else if 2 ^ 64 ≤ n then bitLenAux fuel (n / 2 ^ 64) + 64
    else bitLenAux fuel (n / 2) + 1

/-- Number of binary digits of `n`: `2^(bitLen n - 1) ≤ n < 2^(bitLen n)` for `n > 0`. -/
def bitLen (n : Nat) : Nat := bitLenAux n n

/-- Round to nearest, ties to even: `q` is the floor and `r / d` the fraction left. -/
def roundHalfEven (q r d : Nat) : Nat :=
  if 2 * r < d then q else if d < 2 * r then q + 1 else if q % 2 = 0 then q else q + 1

/-- Floor, remainder and divisor of `num / den / 2^e`. -/
def scaled (num den : Nat) (e : Int) : Nat × Nat × Nat :=
  if 0 ≤ e then
    (num / (den * 2 ^ e.toNat), num % (den * 2 ^ e.toNat), den * 2 ^ e.toNat)
  else (num * 2 ^ (-e).toNat / den, num * 2 ^ (-e).toNat % den, den)

/-- The double nearest to `num / den` as mantissa and exponent, `none` on overflow. -/
def roundRatio (num den : Nat) : Option (Nat × Int) :=
  if num = 0 then some (0, -1074) else
  let e1 : Int := (bitLen num : Int) - (bitLen den : Int) - 52
  let e2 : Int := if (scaled num den e1).1 < 2 ^ 52 then e1 - 1 else e1
  let e : Int := if e2 < -1074 then -1074 else e2
  let s := scaled num den e
  let m := roundHalfEven s.1 s.2.1 s.2.2
  if m = 2 ^ 53 then (if e + 1 > 971 then none else some (2 ^ 52, e + 1))
  else if e > 971 then none else some (m, e)

/-- A JavaScript number: a finite double, an infinity or `NaN`. -/
inductive JSNumber where
  | finite (x : F64) : JSNumber
  | inf (neg : Bool) : JSNumber
  | nan : JSNumber
  deriving DecidableEq, Repr

/-- The number `(-1)^neg * num / den` rounded to a double; the fraction is reduced
first, so the result depends on its value only. Too large a magnitude gives an
infinity. -/
def roundToNumber (neg : Bool) (num den : Nat) : JSNumber :=
  match roundRatio (num / Nat.gcd num den) (den / Nat.gcd num den) with
  | some me => JSNumber.finite ⟨neg, me.1, me.2⟩
  | none => JSNumber.inf neg

/-- The number `(-1)^neg * s * 10^p` rounded to a double. -/
def ofDecimal (neg : Bool) (s : Nat) : Int → JSNumber
  | Int.ofNat k => roundToNumber neg (s * 10 ^ k) 1
  | Int.negSucc k => roundToNumber neg s (10 ^ (k + 1))

/-- The number `(-1)^neg * a * 2^e` rounded to a double. -/
def ofBinary (neg : Bool) (a : Nat) : Int → JSNumber
  | Int.ofNat k => roundToNumber neg (a * 2 ^ k) 1
  | Int.negSucc k => roundToNumber neg a (2 ^ (k + 1))

/-- The integer `n` as a number. -/
def JSNumber.ofInt (n : Int) : JSNumber := roundToNumber (decide (n < 0)) n.natAbs 1

/-- The mantissa of `x` as a signed integer. -/
def F64.signed (x : F64) : Int := if x.neg then -(x.m : Int) else (x.m : Int)

/-- The exact sum `x + y` of two finite doubles, rounded. A zero sum is `-0` only when
both operands are negative (zeros), as round-to-nearest has it. -/
def F64.add (x y : F64) : JSNumber :=
  let e : Int := if x.e ≤ y.e then x.e else y.e
  let s : Int := x.signed * ((2 ^ (x.e - e).toNat : Nat) : Int)
    + y.signed * ((2 ^ (y.e - e).toNat : Nat) : Int)
  if s = 0 then JSNumber.finite ⟨x.neg && y.neg, 0, -1074⟩
  else ofBinary (decide (s < 0)) s.natAbs e

/-- The opposite of a finite double. -/
def F64.negate (x : F64) : F64 := ⟨!x.neg, x.m, x.e⟩

/-- The sum of two numbers. -/
def JSNumber.add : JSNumber → JSNumber → JSNumber
  | .nan, _ => .nan
  | _, .nan => .nan
  | .inf a, .inf b => if a = b then .inf a else .nan
  | .inf a, .finite _ => .inf a
  | .finite _, .inf b => .inf b
  | .finite x, .finite y => F64.add x y

/-- The opposite of a number. -/
def JSNumber.negate : JSNumber → JSNumber
  | .nan => .nan
  | .inf a => .inf (!a)
  | .finite x => .finite x.negate

/-- The difference of two numbers. -/
def JSNumber.sub (a b : JSNumber) : JSNumber := a.add b.negate


/-! ## JavaScript values -/

/-- The JavaScript values of the fragment. An object is the list of its own
enumerable properties in enumeration order. -/
inductive JSVal where
  | undefined : JSVal
  | null : JSVal
  | bool (b : Bool) : JSVal
  | num (x : JSNumber) : JSVal
  | str (s : String) : JSVal
  | arr (xs : List JSVal) : JSVal
  | obj (kvs : List (String × JSVal)) : JSVal

instance : Inhabited JSVal := ⟨JSVal.undefined⟩

/-- The integer `n` as a value. -/
def JSVal.int (n : Int) : JSVal := JSVal.num (JSNumber.ofInt n)

/-- What a JavaScript `throw` carries in this program: an `Error` with its message,
or the `SyntaxError` of `JSON.parse`. -/
inductive JSError where
  | error (message : String) : JSError
  | syntaxError : JSError
  deriving DecidableEq, Repr


/-! ## Number and string rendering -/

/-- The character of a decimal digit `d < 10`. -/
def digitChar (d : Nat) : Char := Char.ofNat (48 + d)

/-- Decimal digits of `n`, most significant first, pushed in front of `acc`. -/
def natDigitsAux : Nat → Nat → List Char → List Char
  | 0, _, acc => acc
  | fuel + 1, n, acc =>
    if n < 10 then digitChar n :: acc
    else natDigitsAux fuel (n / 10) (digitChar (n % 10) :: acc)

/-- Decimal text of a natural number, without leading zeros. -/
def natToChars (n : Nat) : List Char := natDigitsAux (n + 1) n []

/-- The magnitude of a finite double as an exact fraction. -/
def F64.ratio (x : F64) : Nat × Nat :=
  match x.e with
  | Int.ofNat k => (x.m * 2 ^ k, 1)
  | Int.negSucc k => (x.m, 2 ^ (k + 1))

/-- A double in the strict sense: rounding its exact value gives it back. -/
def F64.isDouble (x : F64) : Bool :=
  roundToNumber x.neg x.ratio.1 x.ratio.2 == JSNumber.finite x

/-- The least `j` with `den ≤ num * 10^j`. -/
def leadingZeros : Nat → Nat → Nat → Nat
  | 0, _, _ => 0
  | fuel + 1, num, den =>
    if den ≤ num then 0 else leadingZeros fuel (num * 10) den + 1

/-- The decimal exponent `n` of `num / den > 0`: `10^(n-1) ≤ num / den < 10^n`. -/
def decimalExponent (num den : Nat) : Int :=
  if den ≤ num then ((natToChars (num / den)).length : Int)
  else 1 - (leadingZeros den num den : Int)

/-- The `k`-digit decimals around `num / den`: the floor `s` of `num / den / 10^(n-k)`
with the remainder and the divisor. -/
def digitsFloor (num den : Nat) (n : Int) (k : Nat) : Nat × Nat × Nat :=
  match n - (k : Int) with
  | Int.ofNat j => (num / (den * 10 ^ j), num % (den * 10 ^ j), den * 10 ^ j)
  | Int.negSucc j => (num * 10 ^ (j + 1) / den, num * 10 ^ (j + 1) % den, den)

/-- The `k`-digit decimal `s * 10^(n-k)` that reads back as `x` and is nearest to it,
if there is one. -/
def shortestWith (x : F64) (n : Int) (k : Nat) : Option (Nat × Int) :=
  let f := digitsFloor x.ratio.1 x.ratio.2 n k
  let p : Int := n - (k : Int)
  let lo := ofDecimal x.neg f.1 p == JSNumber.finite x
  let hi := ofDecimal x.neg (f.1 + 1) p == JSNumber.finite x
  if lo && hi then
    (if 2 * f.2.1 < f.2.2 then some (f.1, p)
     else if f.2.2 < 2 * f.2.1 then some (f.1 + 1, p)
     else if f.1 % 2 = 0 then some (f.1, p) else some (f.1 + 1, p))
  else if lo then some (f.1, p)
  else if hi then some (f.1 + 1, p)
  else none

/-- The exact decimal expansion of a finite double: `s * 10^p` with `p ≤ 0`. -/
def exactDecimal (x : F64) : Nat × Int :=
  match x.e with
  | Int.ofNat k => (x.m * 2 ^ k, 0)
  | Int.negSucc k => (x.m * 5 ^ (k + 1), Int.negSucc k)

/-- The shortest decimal that reads back as `x`, trying `k`, `k + 1`, ... digits;
after the last try the exact expansion is taken. -/
def shortestFrom (x : F64) (n : Int) : Nat → Nat → Nat × Int
  | 0, _ => exactDecimal x
  | tries + 1, k =>
    match shortestWith x n k with
    | some sp => sp
    | none => shortestFrom x n tries (k + 1)

/-- Drops the trailing zeros of `s`, moving them into the exponent. -/
def stripZeros : Nat → Nat → Int → Nat × Int
  | 0, s, p => (s, p)
  | fuel + 1, s, p =>
    if s ≠ 0 ∧ s % 10 = 0 then stripZeros fuel (s / 10) (p + 1) else (s, p)

/-- The digits `s` and exponent `p` of `Number::toString` for a nonzero finite double. -/
def shortestDecimal (x : F64) : Nat × Int :=
  let sp := shortestFrom x (decimalExponent x.ratio.1 x.ratio.2) 17 1
  stripZeros sp.1 sp.1 sp.2

/-- The text of an exponent: its sign and its digits. -/
def exponentChars (e : Int) : List Char :=
  match e with
  | Int.ofNat k => '+' :: natToChars k
  | Int.negSucc k => '-' :: natToChars (k + 1)

/-- The layout of `Number::toString`: digits `ds` of `s` and `n = p + ds.length`. -/
def layoutDecimal (ds : List Char) (n : Int) : List Char :=
  let k : Int := ds.length
  if k ≤ n ∧ n ≤ 21 then ds ++ List.replicate (n - k).toNat '0'
  else if 0 < n ∧ n ≤ 21 then ds.take n.toNat ++ '.' :: ds.drop n.toNat
  else if -6 < n ∧ n ≤ 0 then '0' :: '.' :: (List.replicate (-n).toNat '0' ++ ds)
  else
    match ds with
    | [] => []
    | [d] => d :: 'e' :: exponentChars (n - 1)
    | d :: rest => d :: '.' :: (rest ++ 'e' :: exponentChars (n - 1))

/-- `Number::toString` on a finite double. -/
def F64.toChars (x : F64) : List Char :=
  if x.m = 0 then ['0']
  else
    let sp := shortestDecimal ⟨false, x.m, x.e⟩
    let ds := natToChars sp.1
    let t := layoutDecimal ds (sp.2 + (ds.length : Int))
    if x.neg then '-' :: t else t

/-- `Number::toString`. -/
def JSNumber.toChars : JSNumber → List Char
  | .nan => ['N', 'a', 'N']
  | .inf false => "Infinity".data
  | .inf true => "-Infinity".data
  | .finite x => x.toChars


/-- The character of a hexadecimal digit `d < 16`, lower case as `JSON.stringify` writes it. -/
def hexChar (d : Nat) : Char :=
  if d < 10 then Char.ofNat (48 + d) else Char.ofNat (87 + d)

/-- `QuoteJSONString` on one character. -/
def quoteChar (c : Char) : List Char :=
  if c = '"' then ['\\', '"']
  else if c = '\\' then ['\\', '\\']
  else if c = Char.ofNat 8 then ['\\', 'b']
  else if c = Char.ofNat 12 then ['\\', 'f']
  else if c = '\n' then ['\\', 'n']
  else if c = '\r' then ['\\', 'r']
  else if c = '\t' then ['\\', 't']
  else if c.toNat < 32 then
    ['\\', 'u', '0', '0', hexChar (c.toNat / 16), hexChar (c.toNat % 16)]
  else [c]

/-- Body of a quoted JSON string, without the surrounding quotes. -/
def quoteChars : List Char → List Char
  | [] => []
  | c :: cs => quoteChar c ++ quoteChars cs

/-- `QuoteJSONString`. -/
def quoteJSONString (s : String) : List Char :=
  '"' :: (quoteChars s.data ++ ['"'])

/-! ## `JSON.stringify` -/

namespace JSON

mutual
/-- `SerializeJSONProperty`: `none` is JavaScript's `undefined` result. A number that
is not finite is written as `null`. -/
def serialize : JSVal → Option (List Char)
  | .undefined => none
  | .null => some ['n', 'u', 'l', 'l']
  | .bool true => some ['t', 'r', 'u', 'e']
  | .bool false => some ['f', 'a', 'l', 's', 'e']
  | .num (.finite x) => some x.toChars
  | .num (.inf _) => some ['n', 'u', 'l', 'l']
  | .num .nan => some ['n', 'u', 'l', 'l']
  | .str s => some (quoteJSONString s)
  | .arr xs => some ('[' :: (serializeElems xs ++ [']']))
  | .obj kvs => some ('{' :: (serializeMembers true kvs ++ ['}']))
/-- `SerializeJSONArray`: elements separated by commas, `undefined` written as `null`. -/
def serializeElems : List JSVal → List Char
  | [] => []
  | [x] => (serialize x).getD ['n', 'u', 'l', 'l']
  | x :: y :: rest =>
    (serialize x).getD ['n', 'u', 'l', 'l'] ++ ',' :: serializeElems (y :: rest)
/-- `SerializeJSONObject`: the members whose value is not `undefined`, separated by
commas; `first` says that no member has been written yet. -/
def serializeMembers : Bool → List (String × JSVal) → List Char
  | _, [] => []
  | first, (k, v) :: rest =>
    match serialize v with
    | none => serializeMembers first rest
    | some t =>
      (if first then [] else [',']) ++ quoteJSONString k ++ ':' :: t
        ++ serializeMembers false rest
end

/-- `JSON.stringify(value)`: the JSON text, or `none` for `undefined`. -/
def stringify (v : JSVal) : Option String := (serialize v).map String.mk

end JSON

/-! ## `JSON.parse` -/

/-- JSON white space: space, tab, line feed, carriage return. -/
def isWs (c : Char) : Bool :=
  c = ' ' || c = '\t' || c = '\n' || c = '\r'

/-- Drops leading JSON white space. -/
def skipWs : List Char → List Char
  | [] => []
  | c :: cs => if isWs c then skipWs cs else c :: cs


/-- Value of a decimal digit character. -/
def digitVal? (c : Char) : Option Nat :=
  if 48 ≤ c.toNat ∧ c.toNat ≤ 57 then some (c.toNat - 48) else none

/-- Reads the digits that follow, accumulating their decimal value and their count. -/
def parseDigits (acc cnt : Nat) : List Char → Nat × Nat × List Char
  | [] => (acc, cnt, [])
  | c :: cs =>
    match digitVal? c with
    | some d => parseDigits (acc * 10 + d) (cnt + 1) cs
    | none => (acc, cnt, c :: cs)

/-- The integer part of a JSON number: `0`, or a nonzero digit and more digits. -/
def parseNatLit : List Char → Option (Nat × List Char)
  | [] => none
  | c :: cs =>
    match digitVal? c with
    | none => none
    | some 0 => some (0, cs)
    | some (d + 1) => some ((parseDigits (d + 1) 0 cs).1, (parseDigits (d + 1) 0 cs).2.2)

/-- The optional fraction of a JSON number after the integer part `acc`: a point and at
least one digit. Gives all digits read so far as one integer and the count of
fraction digits. -/
def parseFraction (acc : Nat) : List Char → Option (Nat × Nat × List Char)
  | [] => some (acc, 0, [])
  | c :: cs =>
    if c = '.' then
      match cs with
      | [] => none
      | c1 :: cs1 =>
        match digitVal? c1 with
        | some d => some (parseDigits (acc * 10 + d) 1 cs1)
        | none => none
    else some (acc, 0, c :: cs)

/-- The digits of an exponent, at least one. -/
def parseExponentDigits (neg : Bool) : List Char → Option (Int × List Char)
  | [] => none
  | c :: cs =>
    match digitVal? c with
    | some d =>
      let r := parseDigits d 0 cs
      some (if neg then -(r.1 : Int) else (r.1 : Int), r.2.2)
    | none => none

/-- The optional exponent of a JSON number: `e` or `E`, an optional sign, digits. -/
def parseExponent : List Char → Option (Int × List Char)
  | [] => some (0, [])
  | c :: cs =>
    if c = 'e' ∨ c = 'E' then
      match cs with
      | [] => none
      | s :: cs1 =>
        if s = '+' then parseExponentDigits false cs1
        else if s = '-' then parseExponentDigits true cs1
        else parseExponentDigits false (s :: cs1)
    else some (0, c :: cs)

/-- An unsigned JSON number: integer part, optional fraction, optional exponent; the
decimal read is rounded to a double. -/
def parseUnsigned (neg : Bool) (cs : List Char) : Option (JSNumber × List Char) :=
  match parseNatLit cs with
  | none => none
  | some (i, r1) =>
    match parseFraction i r1 with
    | none => none
    | some (s, f, r2) =>
      match parseExponent r2 with
      | none => none
      | some (e, r3) => some (ofDecimal neg s (e - (f : Int)), r3)

/-- A JSON number with its optional minus sign. -/
def parseNumberLit : List Char → Option (JSNumber × List Char)
  | [] => none
  | c :: cs => if c = '-' then parseUnsigned true cs else parseUnsigned false (c :: cs)

/-- Value of a hexadecimal digit character, either case. -/
def hexVal? (c : Char) : Option Nat :=
  if 48 ≤ c.toNat ∧ c.toNat ≤ 57 then some (c.toNat - 48)
  else if 97 ≤ c.toNat ∧ c.toNat ≤ 102 then some (c.toNat - 87)
  else if 65 ≤ c.toNat ∧ c.toNat ≤ 70 then some (c.toNat - 55)
  else none


/-- The code unit that the four hexadecimal digits of `\uXXXX` name. -/
def unicodeUnit (a b c d : Char) : Option Nat :=
  match hexVal? a, hexVal? b, hexVal? c, hexVal? d with
  | some x, some y, some z, some w => some (((x * 16 + y) * 16 + z) * 16 + w)
  | _, _, _, _ => none

/-- The character of a one-letter escape. -/
def simpleEscape (e : Char) : Option Char :=
  if e = '"' then some '"'
  else if e = '\\' then some '\\'
  else if e = '/' then some '/'
  else if e = 'b' then some (Char.ofNat 8)
  else if e = 'f' then some (Char.ofNat 12)
  else if e = 'n' then some '\n'
  else if e = 'r' then some '\r'
  else if e = 't' then some '\t'
  else none


/-- Reads one escape after its backslash: the character and the text left. An escaped
high surrogate must be followed by an escaped low surrogate and the pair is one
character; an escaped surrogate on its own is outside the fragment. -/
def readEscape : List Char → Option (Char × List Char)
  | [] => none
  | e :: cs1 =>
    if e = 'u' then
      match cs1 with
      | a :: b :: c3 :: d :: cs2 =>
        match unicodeUnit a b c3 d with
        | none => none
        | some u =>
          if 55296 ≤ u ∧ u < 56320 then
            match cs2 with
            | b1 :: u1 :: a2 :: b2 :: c2 :: d2 :: cs3 =>
              if b1 = '\\' ∧ u1 = 'u' then
                match unicodeUnit a2 b2 c2 d2 with
                | some l =>
                  if 56320 ≤ l ∧ l < 57344 then
                    some (Char.ofNat (65536 + (u - 55296) * 1024 + (l - 56320)), cs3)
                  else none
                | none => none
              else none
            | _ => none
          else if 56320 ≤ u ∧ u < 57344 then none
          else some (Char.ofNat u, cs2)
      | _ => none
    else (simpleEscape e).map (fun ch => (ch, cs1))

/-- Reads a JSON string after its opening quote, up to and including the closing quote;
every step takes at least one character and one unit of fuel. -/
def parseStrAux : Nat → List Char → Option (List Char × List Char)
  | 0, _ => none
  | _ + 1, [] => none
  | fuel + 1, c :: cs =>
    if c = '"' then some ([], cs)
    else if c = '\\' then
      match readEscape cs with
      | none => none
      | some (ch, r) => (parseStrAux fuel r).map (fun q => (ch :: q.1, q.2))
    else if c.toNat < 32 then none
    else (parseStrAux fuel cs).map (fun q => (c :: q.1, q.2))

/-- Reads a JSON string after its opening quote; the length of the text is fuel enough. -/
def parseStrBody (cs : List Char) : Option (List Char × List Char) :=
  parseStrAux cs.length cs

/-- Reads the given word, then yields `v`. -/
def expectWord (w : List Char) (v : JSVal) (cs : List Char) : Option (JSVal × List Char) :=
  if w.isPrefixOf cs then some (v, cs.drop w.length) else none

/-- Defines property `k` of an object under construction: an existing property keeps
its place and takes the new value, a new one goes last. -/
def objSet : List (String × JSVal) → String → JSVal → List (String × JSVal)
  | [], k, v => [(k, v)]
  | (k1, v1) :: rest, k, v =>
    if k1 = k then (k, v) :: rest else (k1, v1) :: objSet rest k v

mutual
/-- Reads one JSON value, white space before it allowed. -/
def parseValue : Nat → List Char → Option (JSVal × List Char)
  | 0, _ => none
  | fuel + 1, cs =>
    match skipWs cs with
    | [] => none
    | c :: rest =>
      if c = 'n' then expectWord ['u', 'l', 'l'] JSVal.null rest
      else if c = 't' then expectWord ['r', 'u', 'e'] (JSVal.bool true) rest
      else if c = 'f' then expectWord ['a', 'l', 's', 'e'] (JSVal.bool false) rest
      else if c = '"' then
        (parseStrBody rest).map (fun r => (JSVal.str (String.mk r.1), r.2))
      else if c = '[' then
        match skipWs rest with
        | [] => none
        | c1 :: rest1 =>
          if c1 = ']' then some (JSVal.arr [], rest1)
          else (parseElems fuel (c1 :: rest1)).map (fun r => (JSVal.arr r.1, r.2))
      else if c = '{' then
        match skipWs rest with
        | [] => none
        | c1 :: rest1 =>
          if c1 = '}' then some (JSVal.obj [], rest1)
          else (parseMembers fuel [] (c1 :: rest1)).map (fun r => (JSVal.obj r.1, r.2))
      else (parseNumberLit (c :: rest)).map (fun r => (JSVal.num r.1, r.2))
/-- Reads the elements of a non-empty array and its closing bracket. -/
def parseElems : Nat → List Char → Option (List JSVal × List Char)
  | 0, _ => none
  | fuel + 1, cs =>
    match parseValue fuel cs with
    | none => none
    | some (v, r) =>
      match skipWs r with
      | [] => none
      | c :: r1 =>
        if c = ',' then (parseElems fuel r1).map (fun q => (v :: q.1, q.2))
        else if c = ']' then some ([v], r1)
        else none
/-- Reads the members of a non-empty object and its closing brace, adding them to `acc`. -/
def parseMembers : Nat → List (String × JSVal) → List Char →
    Option (List (String × JSVal) × List Char)
  | 0, _, _ => none
  | fuel + 1, acc, cs =>
    match skipWs cs with
    | [] => none
    | q :: r0 =>
      if q = '"' then
        match parseStrBody r0 with
        | none => none
        | some (k, r1) =>
          match skipWs r1 with
          | [] => none
          | c1 :: r2 =>
            if c1 = ':' then
              match parseValue fuel r2 with
              | none => none
              | some (v, r3) =>
                match skipWs r3 with
                | [] => none
                | c2 :: r4 =>
                  if c2 = ',' then parseMembers fuel (objSet acc (String.mk k) v) r4
                  else if c2 = '}' then some (objSet acc (String.mk k) v, r4)
                  else none
            else none
      else none
end

namespace JSON

/-- `JSON.parse(text)`: the value of a text that is one JSON value with optional white
space around it, `SyntaxError` otherwise. Every step of the reader consumes a
character within two levels of calls, so twice the length is fuel enough. -/
def parse (text : String) : Except JSError JSVal :=
  match parseValue (2 * text.length + 2) text.data with
  | none => Except.error JSError.syntaxError
  | some (v, rest) =>
    match skipWs rest with
    | [] => Except.ok v
    | _ :: _ => Except.error JSError.syntaxError

end JSON
/-! ## JavaScript operators -/

/-- `ToBoolean`: the truthiness test of `?:` and `||`. -/
def toBoolean : JSVal → Bool
  | .undefined => false
  | .null => false
  | .bool b => b
  | .num (.finite x) => x.m != 0
  | .num (.inf _) => true
  | .num .nan => false
  | .str s => s != ""
  | .arr _ => true
  | .obj _ => true

/-- The test `v === undefined || v === null`. -/
def isNullish : JSVal → Bool
  | .undefined => true
  | .null => true
  | _ => false

/-- The test `v !== null`. -/
def notNull : JSVal → Bool
  | .null => false
  | _ => true

/-- The operator `a || b`. -/
def jsOr (a b : JSVal) : JSVal := if toBoolean a then a else b

/-- A parameter with a default value: the default replaces `undefined`. -/
def defaultParam (arg dflt : JSVal) : JSVal :=
  match arg with
  | .undefined => dflt
  | v => v

mutual
/-- `ToString`, with `Array.prototype.join` for arrays. -/
def jsToChars : JSVal → List Char
  | .undefined => "undefined".data
  | .null => "null".data
  | .bool true => "true".data
  | .bool false => "false".data
  | .num x => x.toChars
  | .str s => s.data
  | .arr xs => joinChars xs
  | .obj _ => "[object Object]".data
/-- `Array.prototype.join(",")`: `undefined` and `null` elements give the empty text. -/
def joinChars : List JSVal → List Char
  | [] => []
  | [x] => elemChars x
  | x :: y :: rest => elemChars x ++ ',' :: joinChars (y :: rest)
/-- One element of a joined array. -/
def elemChars : JSVal → List Char
  | .undefined => []
  | .null => []
  | .bool true => "true".data
  | .bool false => "false".data
  | .num x => x.toChars
  | .str s => s.data
  | .arr xs => joinChars xs
  | .obj _ => "[object Object]".data
end

/-- The white space and line terminators that `StringToNumber` trims. -/
def isStrWs (c : Char) : Bool :=
  c.toNat = 32 || (9 ≤ c.toNat && c.toNat ≤ 13) || c.toNat = 160 || c.toNat = 5760
    || (8192 ≤ c.toNat && c.toNat ≤ 8202) || c.toNat = 8232 || c.toNat = 8233
    || c.toNat = 8239 || c.toNat = 8287 || c.toNat = 12288 || c.toNat = 65279

/-- Reads digits of base `b` to the end of the text; `none` when another character occurs. -/
def radixDigits (b : Nat) (acc : Nat) : List Char → Option Nat
  | [] => some acc
  | c :: cs =>
    match hexVal? c with
    | some d => if d < b then radixDigits b (acc * b + d) cs else none
    | none => none

/-- The digits of a `0x`, `0o` or `0b` literal: at least one, to the end of the text. -/
def radixLiteral (b : Nat) : List Char → JSNumber
  | [] => JSNumber.nan
  | c :: cs =>
    match radixDigits b 0 (c :: cs) with
    | some v => roundToNumber false v 1
    | none => JSNumber.nan

/-- `StrUnsignedDecimalLiteral` to the end of the text: `Infinity`, or digits with an
optional point and an optional exponent, at least one digit before or after the point. -/
def strUnsignedDecimal (neg : Bool) (cs : List Char) : JSNumber :=
  if cs = "Infinity".data then JSNumber.inf neg
  else
    let i := parseDigits 0 0 cs
    let f : Nat × Nat × List Char :=
      match i.2.2 with
      | [] => (i.1, 0, [])
      | c :: r => if c = '.' then parseDigits i.1 0 r else (i.1, 0, c :: r)
    if i.2.1 + f.2.1 = 0 then JSNumber.nan
    else
      match parseExponent f.2.2 with
      | some (e, []) => ofDecimal neg f.1 (e - (f.2.1 : Int))
      | _ => JSNumber.nan

/-- `StringToNumber`: white space trimmed, the empty text is `0`, then a signed decimal
literal or an unsigned hexadecimal, octal or binary one; anything else is `NaN`. -/
def stringToNumber (cs : List Char) : JSNumber :=
  match (cs.dropWhile isStrWs).reverse.dropWhile isStrWs |>.reverse with
  | [] => JSNumber.finite ⟨false, 0, -1074⟩
  | c :: rest =>
    if c = '-' then strUnsignedDecimal true rest
    else if c = '+' then strUnsignedDecimal false rest
    else
      match c, rest with
      | '0', r :: digits =>
        if r = 'x' ∨ r = 'X' then radixLiteral 16 digits
        else if r = 'o' ∨ r = 'O' then radixLiteral 8 digits
        else if r = 'b' ∨ r = 'B' then radixLiteral 2 digits
        else strUnsignedDecimal false (c :: rest)
      | _, _ => strUnsignedDecimal false (c :: rest)

/-- `ToNumber`. -/
def toNumber : JSVal → JSNumber
  | .undefined => JSNumber.nan
  | .null => JSNumber.finite ⟨false, 0, -1074⟩
  | .bool true => JSNumber.ofInt 1
  | .bool false => JSNumber.finite ⟨false, 0, -1074⟩
  | .num x => x
  | .str s => stringToNumber s.data
  | .arr xs => stringToNumber (joinChars xs)
  | .obj _ => JSNumber.nan

/-- `ToPrimitive`: arrays and plain objects turn into their text. -/
def toPrimitive : JSVal → JSVal
  | .arr xs => .str (String.mk (joinChars xs))
  | .obj _ => .str "[object Object]"
  | v => v

/-- Whether a value is a string. -/
def isStr : JSVal → Bool
  | .str _ => true
  | _ => false

/-- The operator `a + b`: text concatenation when either primitive is a string,
the sum of the two `ToNumber` results otherwise. -/
def jsAdd (a b : JSVal) : JSVal :=
  let pa := toPrimitive a
  let pb := toPrimitive b
  if isStr pa || isStr pb then .str (String.mk (jsToChars pa ++ jsToChars pb))
  else .num ((toNumber pa).add (toNumber pb))

/-- The operator `a - b`: the difference of the two `ToNumber` results. -/
def jsSub (a b : JSVal) : JSVal :=
  .num ((toNumber a).sub (toNumber b))

/-! ## The browser store -/

/-- The state of `localStorage`: the text bound to each key, if any. -/
abbrev Store := String → Option String

namespace localStorage

/-- The store with no binding. -/
def empty : Store := fun _ => none

/-- `localStorage.getItem(key)`: the text, or `null` (`none`). -/
def getItem (st : Store) (key : String) : Option String := st key

/-- `localStorage.setItem(key, value)`; the value is turned into a string first, so the
`undefined` that `JSON.stringify` can return would be stored as the text `undefined`. -/
def setItem (st : Store) (key : String) (value : Option String) : Store :=
  fun k => if k = key then some (value.getD "undefined") else st k

/-- `localStorage.removeItem(key)`. -/
def removeItem (st : Store) (key : String) : Store :=
  fun k => if k = key then none else st k

/-- `localStorage.clear()`. -/
def clear (_st : Store) : Store := fun _ => none

end localStorage

/-! ## The adapter `localStorageObj` -/

/-- What a method call leaves behind: its return value or the error it threw, and the store. -/
abbrev Outcome (α : Type) := Except JSError α × Store

/-- A callback: it receives a value, may read and write the store, and returns or throws. -/
abbrev Callback := JSVal → Store → Outcome JSVal

/-- A callback that only computes `f` on its argument. -/
def pureCallback (f : JSVal → JSVal) : Callback := fun v st => (Except.ok (f v), st)

namespace localStorageObj

/-- `getItem(key)`: `item ? JSON.parse(item) : null`, where `item` is `null` or a string
and a string is truthy when it is not empty. -/
def getItem (st : Store) (key : String) : Except JSError JSVal :=
  match localStorage.getItem st key with
  | none => Except.ok JSVal.null
  | some item => if item != "" then JSON.parse item else Except.ok JSVal.null

/-- `setItem(key, value)`. -/
def setItem (st : Store) (key : String) (value : JSVal) : Outcome Unit :=
  if isNullish value then
    (Except.error (JSError.error "Cannot store undefined or null value"), st)
  else (Except.ok (), localStorage.setItem st key (JSON.stringify value))

/-- `removeItem(key)`. -/
def removeItem (st : Store) (key : String) : Outcome Unit :=
  (Except.ok (), localStorage.removeItem st key)

/-- `clear()`. -/
def clear (st : Store) : Outcome Unit :=
  (Except.ok (), localStorage.clear st)

/-- `hasItem(key)`: `localStorage.getItem(key) !== null`. -/
def hasItem (st : Store) (key : String) : Bool :=
  (localStorage.getItem st key).isSome

/-- The message of the error `updateItem` throws. -/
def missingKeyMessage (key : String) : String :=
  "Item with key \"" ++ key ++ "\" does not exist"

/-- `updateItem(key, updateCallback)`. -/
def updateItem (st : Store) (key : String) (updateCallback : Callback) : Outcome Unit :=
  match getItem st key with
  | Except.error e => (Except.error e, st)
  | Except.ok currentItem =>
    if notNull currentItem then
      match updateCallback currentItem st with
      | (Except.error e, st1) => (Except.error e, st1)
      | (Except.ok updatedItem, st1) => setItem st1 key updatedItem
    else (Except.error (JSError.error (missingKeyMessage key)), st)

/-- `incrementItem(key, incrementBy = 1)`. -/
def incrementItem (st : Store) (key : String) (incrementBy : JSVal) : Outcome JSVal :=
  let incrementBy := defaultParam incrementBy (JSVal.int 1)
  match getItem st key with
  | Except.error e => (Except.error e, st)
  | Except.ok item =>
    let currentValue := jsOr item (JSVal.int 0)
    let updatedValue := jsAdd currentValue incrementBy
    match setItem st key updatedValue with
    | (Except.error e, st1) => (Except.error e, st1)
    | (Except.ok _, st1) => (Except.ok updatedValue, st1)

/-- `decrementItem(key, decrementBy = 1)`. -/
def decrementItem (st : Store) (key : String) (decrementBy : JSVal) : Outcome JSVal :=
  let decrementBy := defaultParam decrementBy (JSVal.int 1)
  match getItem st key with
  | Except.error e => (Except.error e, st)
  | Except.ok item =>
    let currentValue := jsOr item (JSVal.int 0)
    let updatedValue := jsSub currentValue decrementBy
    match setItem st key updatedValue with
    | (Except.error e, st1) => (Except.error e, st1)
    | (Except.ok _, st1) => (Except.ok updatedValue, st1)

end localStorageObj

/-! ## JSON-representable values -/

mutual
/-- A value that JSON can represent: no `undefined`, every number a finite double, no
object with two properties of the same name. -/
def isJSON : JSVal → Bool
  | .undefined => false
  | .null => true
  | .bool _ => true
  | .num (.finite x) => x.isDouble
  | .num (.inf _) => false
  | .num .nan => false
  | .str _ => true
  | .arr xs => allJSON xs
  | .obj kvs => membersJSON kvs
/-- Every element is JSON-representable. -/
def allJSON : List JSVal → Bool
  | [] => true
  | x :: xs => isJSON x && allJSON xs
/-- Every property value is JSON-representable and no name occurs twice. -/
def membersJSON : List (String × JSVal) → Bool
  | [] => true
  | (k, v) :: rest => isJSON v && !(rest.any (fun p => p.1 == k)) && membersJSON rest
end

/-- A `StoredValue` of the specification: JSON-representable and not `null`. -/
def isStoredValue (v : JSVal) : Bool := isJSON v && !isNullish v

mutual
/-- What a value reads back as: JSON text has no negative zero, so `-0` is written as
`0` and reads back as `0`; nothing else changes. -/
def readBack : JSVal → JSVal
  | .undefined => .undefined
  | .null => .null
  | .bool b => .bool b
  | .num (.finite x) => .num (.finite (if x.m = 0 then ⟨false, x.m, x.e⟩ else x))
  | .num (.inf s) => .num (.inf s)
  | .num .nan => .num .nan
  | .str s => .str s
  | .arr xs => .arr (readBackList xs)
  | .obj kvs => .obj (readBackMembers kvs)
/-- The elements as they read back. -/
def readBackList : List JSVal → List JSVal
  | [] => []
  | x :: xs => readBack x :: readBackList xs
/-- The members as they read back. -/
def readBackMembers : List (String × JSVal) → List (String × JSVal)
  | [] => []
  | (k, v) :: rest => (k, readBack v) :: readBackMembers rest
end

mutual
/-- No number in the value is the negative zero. -/
def noNegZero : JSVal → Bool
  | .num (.finite x) => !(x.m == 0 && x.neg)
  | .arr xs => noNegZeroList xs
  | .obj kvs => noNegZeroMembers kvs
  | _ => true
/-- No element has a negative zero. -/
def noNegZeroList : List JSVal → Bool
  | [] => true
  | x :: xs => noNegZero x && noNegZeroList xs
/-- No member has a negative zero. -/
def noNegZeroMembers : List (String × JSVal) → Bool
  | [] => true
  | (_, v) :: rest => noNegZero v && noNegZeroMembers rest
end

/-- No property name occurs twice. -/
def distinctKeys : List (String × JSVal) → Bool
  | [] => true
  | (k, _) :: rest => !(rest.any (fun p => p.1 == k)) && distinctKeys rest

mutual
/-- Reader calls that a value needs: the fuel that reads its text back. -/
def readCost : JSVal → Nat
  | .arr xs => elemsCost xs + 1
  | .obj kvs => membersCost kvs + 1
  | _ => 1
/-- Reader calls for the elements of an array. -/
def elemsCost : List JSVal → Nat
  | [] => 0
  | x :: xs => readCost x + elemsCost xs + 1
/-- Reader calls for the members of an object. -/
def membersCost : List (String × JSVal) → Nat
  | [] => 0
  | (_, v) :: rest => readCost v + membersCost rest + 1
end

/-- The characters a JSON value can start with. -/
def valueStart (c : Char) : Bool :=
  c = 'n' || c = 't' || c = 'f' || c = '"' || c = '[' || c = '{' || c = '-'
    || (digitVal? c).isSome

/-- The fraction that `ofDecimal` rounds. -/
def decRatio (s : Nat) : Int → Nat × Nat
  | Int.ofNat k => (s * 10 ^ k, 1)
  | Int.negSucc k => (s, 10 ^ (k + 1))

/-- The value of a list of digit characters read after `acc`. -/
def digitsValFrom (acc : Nat) : List Char → Nat
  | [] => acc
  | c :: cs => digitsValFrom (acc * 10 + (digitVal? c).getD 0) cs

/-- Every character is a decimal digit. -/
def AllDigits (ds : List Char) : Prop := ∀ c ∈ ds, (digitVal? c).isSome = true

/-- A text that does not go on with a digit. -/
def NoDigitStart (rest : List Char) : Prop :=
  ∀ c cs, rest = c :: cs → digitVal? c = none

/-- A text at which a number ends: no digit, point or exponent mark comes next. -/
def NumberEnd (rest : List Char) : Prop :=
  ∀ c cs, rest = c :: cs → digitVal? c = none ∧ c ≠ '.' ∧ c ≠ 'e' ∧ c ≠ 'E'

/-- A number with the sign replaced. -/
def JSNumber.withSign (neg : Bool) : JSNumber → JSNumber
  | .finite x => .finite ⟨neg, x.m, x.e⟩
  | .inf _ => .inf neg
  | .nan => .nan

/-- The exact value of a finite double, for reasoning. -/
def F64.toRat (x : F64) : ℚ := (x.signed : ℚ) * (2 : ℚ) ^ x.e

/-- The fraction that `ofBinary` rounds. -/
def binRatio (a : Nat) : Int → Nat × Nat
  | Int.ofNat k => (a * 2 ^ k, 1)
  | Int.negSucc k => (a, 2 ^ (k + 1))

/-- What enough fuel gives on the text of a value, of the elements of an array and of
the members of an object. -/
def ReadsBack (fuel : Nat) : Prop :=
  (∀ v t rest, isJSON v = true → JSON.serialize v = some t → readCost v ≤ fuel →
      NumberEnd rest → parseValue fuel (t ++ rest) = some (readBack v, rest))
  ∧ (∀ xs rest, xs ≠ [] → allJSON xs = true → elemsCost xs ≤ fuel →
      parseElems fuel (JSON.serializeElems xs ++ ']' :: rest) = some (readBackList xs, rest))
  ∧ (∀ kvs acc rest, kvs ≠ [] → membersJSON kvs = true → membersCost kvs ≤ fuel →
      parseMembers fuel acc (JSON.serializeMembers true kvs ++ '}' :: rest)
        = some ((readBackMembers kvs).foldl (fun a p => objSet a p.1 p.2) acc, rest))

/-- The reader calls a value needs are bounded by the length of its text. -/
def CostBound (n : Nat) : Prop :=
  (∀ v t, isJSON v = true → JSON.serialize v = some t → readCost v ≤ n →
      readCost v ≤ 2 * t.length)
  ∧ (∀ xs, allJSON xs = true → elemsCost xs ≤ n →
      elemsCost xs ≤ 2 * (JSON.serializeElems xs).length + 1)
  ∧ (∀ kvs first, membersJSON kvs = true → membersCost kvs ≤ n →
      membersCost kvs ≤ 2 * (JSON.serializeMembers first kvs).length)


/-- The bound under which a readBack fact is proved, by size. -/
def ReadBackFacts (n : Nat) : Prop :=
  (∀ v, readCost v ≤ n → (noNegZero v = true → readBack v = v)
      ∧ isNullish (readBack v) = isNullish v ∧ notNull (readBack v) = notNull v)
  ∧ (∀ xs, elemsCost xs ≤ n → noNegZeroList xs = true → readBackList xs = xs)
  ∧ (∀ kvs, membersCost kvs ≤ n → noNegZeroMembers kvs = true → readBackMembers kvs = kvs)

/-- Deep equality of two values, numbers compared as `===` compares them: the two
zeros are equal, everything else is compared part by part. -/
def deepEqual (a b : JSVal) : Prop := readBack a = readBack b

/-- The integer a finite double is exactly, when it is one. -/
def F64.toInt? (x : F64) : Option Int :=
  if 0 ≤ x.e then some (x.signed * ((2 ^ x.e.toNat : Nat) : Int))
  else if x.m % 2 ^ (-x.e).toNat = 0 then
    some (if x.neg then -((x.m / 2 ^ (-x.e).toNat : Nat) : Int)
      else ((x.m / 2 ^ (-x.e).toNat : Nat) : Int))
  else none

/-- The integer a value is exactly: none for what is not a number or not an integer. -/
def JSVal.toInt? : JSVal → Option Int
  | .num (.finite x) => x.toInt?
  | _ => none

/-- The key holds the integer `n`, or has no binding and `n` is `0`. -/
def HoldsInt (st : Store) (k : String) (n : Int) : Prop :=
  (localStorageObj.hasItem st k = true ∧ localStorageObj.getItem st k = Except.ok (JSVal.int n))
  ∨ (localStorageObj.hasItem st k = false ∧ n = 0)

/-- An integer in the range where every integer is a double: `|n| ≤ 2^53`. -/
def SafeInt (n : Int) : Prop := n.natAbs ≤ 2 ^ 53

instance SafeInt.decidable (n : Int) : Decidable (SafeInt n) :=
  inferInstanceAs (Decidable (n.natAbs ≤ 2 ^ 53))

/-! ## Call sequences and the store invariant -/

/-- A call of one of the six mutating methods; callbacks are the pure ones. -/
inductive Call where
  | setItem (key : String) (value : JSVal) : Call
  | updateItem (key : String) (updateCallback : JSVal → JSVal) : Call
  | incrementItem (key : String) (incrementBy : JSVal) : Call
  | decrementItem (key : String) (decrementBy : JSVal) : Call
  | removeItem (key : String) : Call
  | clear : Call

/-- The store a call leaves behind, whether it returned or threw. -/
def Call.run (st : Store) : Call → Store
  | .setItem key value => (localStorageObj.setItem st key value).2
  | .updateItem key f => (localStorageObj.updateItem st key (pureCallback f)).2
  | .incrementItem key d => (localStorageObj.incrementItem st key d).2
  | .decrementItem key d => (localStorageObj.decrementItem st key d).2
  | .removeItem key => (localStorageObj.removeItem st key).2
  | .clear => (localStorageObj.clear st).2

/-- The store after a sequence of calls. -/
def runCalls (st : Store) (calls : List Call) : Store := calls.foldl Call.run st

/-- Invariant I1/I2 as the claim words it: every text the store holds is valid JSON that
deserializes to a value other than `null`, and that is what `getItem` returns. -/
def StoreInvariant (st : Store) : Prop :=
  ∀ k text, st k = some text →
    ∃ v, JSON.parse text = Except.ok v ∧ notNull v = true
      ∧ localStorageObj.getItem st k = Except.ok v

/-- Every text the store holds is the JSON text of a stored value. -/
def WrittenValues (st : Store) : Prop :=
  ∀ k text, st k = some text → ∃ v, isStoredValue v = true ∧ JSON.stringify v = some text
/-- The value a call writes is JSON-representable, or is the `null` or `undefined`
that `setItem` rejects: the argument of `setItem`, the result of the callback on the
value read, the sum or difference that `incrementItem` or `decrementItem` computes
from the value read. -/
def Call.admissible (st : Store) : Call → Prop
  | .setItem _ value => (isNullish value || isJSON value) = true
  | .updateItem key f =>
    ∀ x, localStorageObj.getItem st key = Except.ok x →
      (isNullish (f x) || isJSON (f x)) = true
  | .incrementItem key d =>
    ∀ x, localStorageObj.getItem st key = Except.ok x →
      isJSON (jsAdd (jsOr x (JSVal.int 0)) (defaultParam d (JSVal.int 1))) = true
  | .decrementItem key d =>
    ∀ x, localStorageObj.getItem st key = Except.ok x →
      isJSON (jsSub (jsOr x (JSVal.int 0)) (defaultParam d (JSVal.int 1))) = true
  | .removeItem _ => True
  | .clear => True


/-- Every call of the sequence is admissible in the store it is made in. -/
def Admissible : Store → List Call → Prop
  | _, [] => True
  | st, c :: cs => c.admissible st ∧ Admissible (c.run st) cs

/-- Two stores agree at a key: same text, hence the same `hasItem` and `getItem`. -/
def SameAt (st1 st2 : Store) (k : String) : Prop :=
  st1 k = st2 k ∧ localStorageObj.hasItem st1 k = localStorageObj.hasItem st2 k
    ∧ localStorageObj.getItem st1 k = localStorageObj.getItem st2 k

/-! ## Rounding depends on the value only -/

theorem reduced_congr (n d n1 d1 : Nat) (hd : d ≠ 0) (hd1 : d1 ≠ 0) (h : n * d1 = n1 * d) :
    n / Nat.gcd n d = n1 / Nat.gcd n1 d1 ∧ d / Nat.gcd n d = d1 / Nat.gcd n1 d1 := by
  have hz : ((n : Int)) * (d1 : Int) = (n1 : Int) * (d : Int) := by exact_mod_cast h
  have e : Rat.normalize (n : Int) d hd = Rat.normalize (n1 : Int) d1 hd1 :=
    (Rat.normalize_eq_iff hd hd1).mpr hz
  simp only [Rat.normalize_eq, Rat.mk'.injEq, Int.natAbs_ofNat] at e
  refine ⟨?_, e.2⟩
  have e1 := e.1
  rw [← Int.natCast_div, ← Int.natCast_div] at e1
  exact_mod_cast e1

theorem roundToNumber_congr (neg : Bool) (n d n1 d1 : Nat) (hd : d ≠ 0) (hd1 : d1 ≠ 0)
    (h : n * d1 = n1 * d) : roundToNumber neg n d = roundToNumber neg n1 d1 := by
  obtain ⟨e1, e2⟩ := reduced_congr n d n1 d1 hd hd1 h
  simp only [roundToNumber, e1, e2]

theorem ofDecimal_eq (neg : Bool) (s : Nat) (p : Int) :
    ofDecimal neg s p = roundToNumber neg (decRatio s p).1 (decRatio s p).2 := by
  cases p <;> rfl

theorem decRatio_den_ne (s : Nat) (p : Int) : (decRatio s p).2 ≠ 0 := by
  cases p <;> simp [decRatio]

theorem decRatio_val (s : Nat) (p : Int) :
    ((decRatio s p).1 : ℚ) / ((decRatio s p).2 : ℚ) = (s : ℚ) * (10 : ℚ) ^ p := by
  cases p with
  | ofNat k => simp [decRatio]
  | negSucc k =>
    simp only [decRatio, Nat.cast_pow, Nat.cast_ofNat, zpow_negSucc]
    rw [div_eq_mul_inv]

theorem roundToNumber_congr_rat (neg : Bool) (n d n1 d1 : Nat) (hd : d ≠ 0) (hd1 : d1 ≠ 0)
    (h : (n : ℚ) / (d : ℚ) = (n1 : ℚ) / (d1 : ℚ)) :
    roundToNumber neg n d = roundToNumber neg n1 d1 := by
  apply roundToNumber_congr neg n d n1 d1 hd hd1
  have hdq : (d : ℚ) ≠ 0 := by exact_mod_cast hd
  have hd1q : (d1 : ℚ) ≠ 0 := by exact_mod_cast hd1
  rw [div_eq_div_iff hdq hd1q] at h
  exact_mod_cast h

theorem ofDecimal_congr (neg : Bool) (s s1 : Nat) (p p1 : Int)
    (h : (s : ℚ) * (10 : ℚ) ^ p = (s1 : ℚ) * (10 : ℚ) ^ p1) :
    ofDecimal neg s p = ofDecimal neg s1 p1 := by
  rw [ofDecimal_eq, ofDecimal_eq]
  apply roundToNumber_congr_rat neg _ _ _ _ (decRatio_den_ne s p) (decRatio_den_ne s1 p1)
  rw [decRatio_val, decRatio_val, h]

theorem stripZeros_val (fuel s : Nat) (p : Int) :
    ((stripZeros fuel s p).1 : ℚ) * (10 : ℚ) ^ (stripZeros fuel s p).2
      = (s : ℚ) * (10 : ℚ) ^ p := by
  induction fuel generalizing s p with
  | zero => rfl
  | succ fuel ih =>
    rw [stripZeros]
    split
    · rename_i h
      rw [ih]
      obtain ⟨t, ht⟩ : ∃ t, s = 10 * t := ⟨s / 10, by omega⟩
      subst ht
      have h10 : (10 : ℚ) ≠ 0 := by norm_num
      rw [Nat.mul_div_cancel_left t (by decide : 0 < 10), zpow_add_one₀ h10]
      push_cast
      ring
    · rfl

theorem exactDecimal_val (x : F64) :
    ((exactDecimal x).1 : ℚ) * (10 : ℚ) ^ (exactDecimal x).2
      = (x.ratio.1 : ℚ) / (x.ratio.2 : ℚ) := by
  unfold exactDecimal F64.ratio
  cases x.e with
  | ofNat k => simp
  | negSucc k =>
    simp only [Nat.cast_mul, Nat.cast_pow, Nat.cast_ofNat, zpow_negSucc]
    have h10 : (10 : ℚ) ^ (k + 1) = 5 ^ (k + 1) * 2 ^ (k + 1) := by
      rw [← mul_pow]; norm_num
    rw [h10]
    field_simp
    ring

theorem F64.ratio_den_ne (x : F64) : x.ratio.2 ≠ 0 := by
  unfold F64.ratio
  cases x.e <;> simp

theorem ofDecimal_exactDecimal (x : F64) (h : x.isDouble = true) :
    ofDecimal x.neg (exactDecimal x).1 (exactDecimal x).2 = JSNumber.finite x := by
  have hd : roundToNumber x.neg x.ratio.1 x.ratio.2 = JSNumber.finite x := by
    simpa [F64.isDouble] using h
  rw [← hd, ofDecimal_eq]
  apply roundToNumber_congr_rat _ _ _ _ _ (decRatio_den_ne _ _) x.ratio_den_ne
  rw [decRatio_val, exactDecimal_val]

theorem shortestWith_reads (x : F64) (n : Int) (k : Nat) (sp : Nat × Int)
    (h : shortestWith x n k = some sp) : ofDecimal x.neg sp.1 sp.2 = JSNumber.finite x := by
  unfold shortestWith at h
  simp only [] at h
  split at h
  · rename_i hb
    simp only [Bool.and_eq_true, beq_iff_eq] at hb
    split at h
    · cases h; exact hb.1
    · split at h
      · cases h; exact hb.2
      · split at h <;> cases h
        · exact hb.1
        · exact hb.2
  · split at h
    · rename_i hb; cases h; exact beq_iff_eq.mp hb
    · split at h
      · rename_i hb; cases h; exact beq_iff_eq.mp hb
      · cases h

theorem shortestFrom_reads (x : F64) (n : Int) (hx : x.isDouble = true) (tries k : Nat) :
    ofDecimal x.neg (shortestFrom x n tries k).1 (shortestFrom x n tries k).2
      = JSNumber.finite x := by
  induction tries generalizing k with
  | zero => exact ofDecimal_exactDecimal x hx
  | succ tries ih =>
    rw [shortestFrom]
    split
    · rename_i sp h; exact shortestWith_reads x n k sp h
    · exact ih (k + 1)

theorem shortestDecimal_reads (x : F64) (hx : x.isDouble = true) :
    ofDecimal x.neg (shortestDecimal x).1 (shortestDecimal x).2 = JSNumber.finite x := by
  unfold shortestDecimal
  simp only []
  rw [ofDecimal_congr _ _ _ _ _ (stripZeros_val _ _ _)]
  exact shortestFrom_reads x _ hx 17 1

/-! ## Digit lists -/

theorem digitVal_digitChar (d : Nat) (h : d < 10) : digitVal? (digitChar d) = some d := by
  interval_cases d <;> rfl

theorem digitsValFrom_append (acc : Nat) (a b : List Char) :
    digitsValFrom acc (a ++ b) = digitsValFrom (digitsValFrom acc a) b := by
  induction a generalizing acc with
  | nil => rfl
  | cons c cs ih => simp [digitsValFrom, ih]

theorem digitsValFrom_acc (acc : Nat) (ds : List Char) :
    digitsValFrom acc ds = acc * 10 ^ ds.length + digitsValFrom 0 ds := by
  induction ds generalizing acc with
  | nil => simp [digitsValFrom]
  | cons c cs ih =>
    simp only [digitsValFrom, List.length_cons]
    rw [ih, ih (0 * 10 + _)]
    ring

theorem allDigits_append {a b : List Char} (ha : AllDigits a) (hb : AllDigits b) :
    AllDigits (a ++ b) := by
  intro c hc
  rcases List.mem_append.mp hc with h | h
  · exact ha c h
  · exact hb c h

theorem allDigits_replicate_zero (j : Nat) : AllDigits (List.replicate j '0') := by
  intro c hc
  rw [List.eq_of_mem_replicate hc]
  rfl

theorem digitsValFrom_replicate_zero (acc j : Nat) :
    digitsValFrom acc (List.replicate j '0') = acc * 10 ^ j := by
  induction j generalizing acc with
  | zero => simp [digitsValFrom]
  | succ j ih =>
    simp only [List.replicate_succ, digitsValFrom]
    rw [ih]
    have : (digitVal? '0').getD 0 = 0 := rfl
    rw [this]
    ring

theorem parseDigits_allDigits (acc cnt : Nat) (ds rest : List Char) (hd : AllDigits ds)
    (hr : NoDigitStart rest) :
    parseDigits acc cnt (ds ++ rest) = (digitsValFrom acc ds, cnt + ds.length, rest) := by
  induction ds generalizing acc cnt with
  | nil =>
    cases rest with
    | nil => rfl
    | cons c cs => simp [parseDigits, hr c cs rfl, digitsValFrom]
  | cons c cs ih =>
    have hc := hd c (List.mem_cons_self _ _)
    obtain ⟨d, hd1⟩ := Option.isSome_iff_exists.mp hc
    rw [List.cons_append, parseDigits]
    simp only [hd1, digitsValFrom, Option.getD_some, List.length_cons]
    rw [ih _ _ (fun x hx => hd x (List.mem_cons_of_mem _ hx))]
    congr 2
    omega

theorem natDigitsAux_spec (n : Nat) :
    ∀ fuel acc, n < fuel →
      ∃ ds, natDigitsAux fuel n acc = ds ++ acc ∧ AllDigits ds ∧ digitsValFrom 0 ds = n
        ∧ ∃ c t, ds = c :: t ∧ (0 < n → ∃ d, digitVal? c = some (d + 1)) := by
  induction n using Nat.strong_induction_on with
  | _ n ih =>
    intro fuel acc hlt
    cases fuel with
    | zero => omega
    | succ fuel =>
      rw [natDigitsAux]
      split
      · rename_i h10
        refine ⟨[digitChar n], rfl, ?_, ?_, digitChar n, [], rfl, ?_⟩
        · intro c hc
          rw [List.mem_singleton.mp hc, digitVal_digitChar n h10]; rfl
        · simp [digitsValFrom, digitVal_digitChar n h10]
        · intro hpos
          exact ⟨n - 1, by rw [digitVal_digitChar n h10]; congr 1; omega⟩
      · rename_i h10
        have hdiv : n / 10 < n := Nat.div_lt_self (by omega) (by decide)
        obtain ⟨ds, hds, hall, hval, c, t, hct, hhead⟩ :=
          ih (n / 10) hdiv fuel (digitChar (n % 10) :: acc) (by omega)
        have hm : n % 10 < 10 := Nat.mod_lt _ (by decide)
        refine ⟨ds ++ [digitChar (n % 10)], by simp [hds], ?_, ?_, c,
          t ++ [digitChar (n % 10)], by simp [hct], ?_⟩
        · apply allDigits_append hall
          intro x hx
          rw [List.mem_singleton.mp hx, digitVal_digitChar _ hm]; rfl
        · rw [digitsValFrom_append, hval]
          simp only [digitsValFrom, digitVal_digitChar _ hm, Option.getD_some]
          omega
        · intro _
          exact hhead (by omega)

theorem natToChars_spec (n : Nat) :
    AllDigits (natToChars n) ∧ digitsValFrom 0 (natToChars n) = n
      ∧ ∃ c t, natToChars n = c :: t ∧ (0 < n → ∃ d, digitVal? c = some (d + 1)) := by
  obtain ⟨ds, hds, hall, hval, hhead⟩ := natDigitsAux_spec n (n + 1) [] (by omega)
  rw [List.append_nil] at hds
  unfold natToChars
  rw [hds]
  exact ⟨hall, hval, hhead⟩

/-! ## Reading the parts of a number text -/

theorem NumberEnd.noDigit {rest : List Char} (h : NumberEnd rest) : NoDigitStart rest :=
  fun c cs e => (h c cs e).1

theorem parseNatLit_digits (c : Char) (t rest : List Char) (d : Nat)
    (hall : AllDigits (c :: t)) (hc : digitVal? c = some (d + 1)) (hr : NoDigitStart rest) :
    parseNatLit (c :: t ++ rest) = some (digitsValFrom 0 (c :: t), rest) := by
  have ht : AllDigits t := fun x hx => hall x (List.mem_cons_of_mem _ hx)
  rw [List.cons_append, parseNatLit]
  simp only [hc, parseDigits_allDigits _ _ t rest ht hr, digitsValFrom, Option.getD_some,
    Nat.zero_mul, Nat.zero_add]

theorem parseNatLit_zero (rest : List Char) : parseNatLit ('0' :: rest) = some (0, rest) := by
  rw [parseNatLit]
  rfl

theorem parseFraction_none (acc : Nat) (rest : List Char)
    (h : ∀ c cs, rest = c :: cs → c ≠ '.') :
    parseFraction acc rest = some (acc, 0, rest) := by
  cases rest with
  | nil => rfl
  | cons c cs => simp [parseFraction, h c cs rfl]

theorem parseFraction_digits (acc : Nat) (c : Char) (t rest : List Char)
    (hall : AllDigits (c :: t)) (hr : NoDigitStart rest) :
    parseFraction acc ('.' :: (c :: t ++ rest))
      = some (digitsValFrom acc (c :: t), (c :: t).length, rest) := by
  have ht : AllDigits t := fun x hx => hall x (List.mem_cons_of_mem _ hx)
  obtain ⟨d, hd⟩ := Option.isSome_iff_exists.mp (hall c (List.mem_cons_self _ _))
  rw [List.cons_append, parseFraction]
  simp only [if_true, hd, parseDigits_allDigits _ _ t rest ht hr, digitsValFrom,
    Option.getD_some, List.length_cons]
  congr 3
  omega

theorem parseExponent_none (rest : List Char)
    (h : ∀ c cs, rest = c :: cs → c ≠ 'e' ∧ c ≠ 'E') :
    parseExponent rest = some (0, rest) := by
  cases rest with
  | nil => rfl
  | cons c cs => simp [parseExponent, (h c cs rfl).1, (h c cs rfl).2]

theorem parseExponentDigits_natToChars (neg : Bool) (v : Nat) (rest : List Char)
    (hr : NoDigitStart rest) :
    parseExponentDigits neg (natToChars v ++ rest)
      = some (if neg then -(v : Int) else (v : Int), rest) := by
  obtain ⟨hall, hval, c, t, hct, _⟩ := natToChars_spec v
  rw [hct] at hall hval ⊢
  have ht : AllDigits t := fun x hx => hall x (List.mem_cons_of_mem _ hx)
  obtain ⟨d, hd⟩ := Option.isSome_iff_exists.mp (hall c (List.mem_cons_self _ _))
  rw [List.cons_append, parseExponentDigits]
  simp only [hd, parseDigits_allDigits _ _ t rest ht hr]
  simp only [digitsValFrom, hd, Option.getD_some, Nat.zero_mul, Nat.zero_add] at hval
  rw [hval]

theorem parseExponent_chars (e : Int) (rest : List Char) (hr : NoDigitStart rest) :
    parseExponent ('e' :: (exponentChars e ++ rest)) = some (e, rest) := by
  cases e with
  | ofNat k =>
    simp only [exponentChars, List.cons_append]
    rw [parseExponent]
    simp only [true_or, if_true]
    rw [parseExponentDigits_natToChars false k rest hr]
    rfl
  | negSucc k =>
    simp only [exponentChars, List.cons_append]
    rw [parseExponent]
    simp only [true_or, if_true]
    rw [parseExponentDigits_natToChars true (k + 1) rest hr]
    rfl

/-! ## Reading back the layout of `Number::toString` -/

theorem parseUnsigned_parts (neg : Bool) (cs r1 r2 r3 : List Char) (i s f : Nat) (e : Int)
    (h1 : parseNatLit cs = some (i, r1)) (h2 : parseFraction i r1 = some (s, f, r2))
    (h3 : parseExponent r2 = some (e, r3)) :
    parseUnsigned neg cs = some (ofDecimal neg s (e - (f : Int)), r3) := by
  simp [parseUnsigned, h1, h2, h3]

theorem layout_integer (neg : Bool) (s : Nat) (hs : 0 < s) (j : Nat) (rest : List Char)
    (hr : NumberEnd rest) :
    parseUnsigned neg (natToChars s ++ List.replicate j '0' ++ rest)
      = some (ofDecimal neg s (j : Int), rest) := by
  obtain ⟨hall, hval, c, t, hct, hhead⟩ := natToChars_spec s
  obtain ⟨d, hd⟩ := hhead hs
  have hall2 : AllDigits (c :: (t ++ List.replicate j '0')) := by
    rw [← List.cons_append, ← hct]
    exact allDigits_append hall (allDigits_replicate_zero j)
  have h1 := parseNatLit_digits c (t ++ List.replicate j '0') rest d hall2 hd hr.noDigit
  have hv : digitsValFrom 0 (c :: (t ++ List.replicate j '0')) = s * 10 ^ j := by
    rw [← List.cons_append, ← hct, digitsValFrom_append, hval, digitsValFrom_replicate_zero]
  rw [hv] at h1
  have e0 : natToChars s ++ List.replicate j '0' ++ rest
      = c :: (t ++ List.replicate j '0') ++ rest := by rw [hct]; simp
  rw [e0, parseUnsigned_parts neg _ _ _ _ _ _ _ _ h1
    (parseFraction_none _ rest (fun c cs e => (hr c cs e).2.1))
    (parseExponent_none rest (fun c cs e => (hr c cs e).2.2))]
  congr 2
  apply ofDecimal_congr
  push_cast
  simp [zpow_natCast]

theorem noDigitStart_of_head (c : Char) (cs : List Char) (h : digitVal? c = none) :
    NoDigitStart (c :: cs) := by
  intro c1 cs1 e
  cases e
  exact h

theorem layout_point (neg : Bool) (a b rest : List Char) (c cb : Char) (t tb : List Char)
    (d : Nat) (ha : a = c :: t) (hb : b = cb :: tb) (hall : AllDigits (a ++ b))
    (hd : digitVal? c = some (d + 1)) (hr : NumberEnd rest) :
    parseUnsigned neg (a ++ '.' :: b ++ rest)
      = some (ofDecimal neg (digitsValFrom 0 (a ++ b)) (-(b.length : Int)), rest) := by
  have halla : AllDigits (c :: t) := by
    rw [← ha]; exact fun x hx => hall x (List.mem_append_left _ hx)
  have hallb : AllDigits (cb :: tb) := by
    rw [← hb]; exact fun x hx => hall x (List.mem_append_right _ hx)
  have h1 := parseNatLit_digits c t ('.' :: (cb :: tb ++ rest)) d halla hd
    (noDigitStart_of_head _ _ rfl)
  have h2 := parseFraction_digits (digitsValFrom 0 (c :: t)) cb tb rest hallb hr.noDigit
  have e0 : a ++ '.' :: b ++ rest = c :: t ++ '.' :: (cb :: tb ++ rest) := by
    rw [ha, hb]; simp
  rw [e0, parseUnsigned_parts neg _ _ _ _ _ _ _ _ h1 h2
    (parseExponent_none rest (fun c cs e => (hr c cs e).2.2))]
  rw [ha, hb, digitsValFrom_append]
  simp

theorem layout_small (neg : Bool) (s : Nat) (j : Nat) (rest : List Char)
    (hr : NumberEnd rest) :
    parseUnsigned neg ('0' :: '.' :: (List.replicate j '0' ++ natToChars s) ++ rest)
      = some (ofDecimal neg s (-((j + (natToChars s).length : Nat) : Int)), rest) := by
  obtain ⟨hall, hval, c, t, hct, _⟩ := natToChars_spec s
  have hall2 : AllDigits (List.replicate j '0' ++ natToChars s) :=
    allDigits_append (allDigits_replicate_zero j) hall
  obtain ⟨cb, tb, hb⟩ : ∃ cb tb, List.replicate j '0' ++ natToChars s = cb :: tb := by
    cases j with
    | zero => exact ⟨c, t, by simp [hct]⟩
    | succ j => exact ⟨'0', List.replicate j '0' ++ natToChars s, by simp [List.replicate_succ]⟩
  rw [hb] at hall2
  have h2 := parseFraction_digits 0 cb tb rest hall2 hr.noDigit
  have e0 : '0' :: '.' :: (List.replicate j '0' ++ natToChars s) ++ rest
      = '0' :: ('.' :: (cb :: tb ++ rest)) := by rw [hb]; simp
  rw [e0, parseUnsigned_parts neg _ _ _ _ _ _ _ _ (parseNatLit_zero _) h2
    (parseExponent_none rest (fun c cs e => (hr c cs e).2.2))]
  rw [← hb, digitsValFrom_append, digitsValFrom_replicate_zero, Nat.zero_mul, hval]
  simp

theorem layout_exponent_one (neg : Bool) (c : Char) (rest : List Char) (d : Nat) (e : Int)
    (hd : digitVal? c = some (d + 1)) (hr : NumberEnd rest) :
    parseUnsigned neg ((c :: 'e' :: exponentChars e) ++ rest)
      = some (ofDecimal neg (digitsValFrom 0 [c]) e, rest) := by
  have hc : AllDigits [c] := fun x hx => by
    rw [List.mem_singleton.mp hx, hd]; rfl
  have h1 := parseNatLit_digits c [] ('e' :: (exponentChars e ++ rest)) d hc hd
    (noDigitStart_of_head _ _ rfl)
  have e0 : (c :: 'e' :: exponentChars e) ++ rest
      = c :: [] ++ 'e' :: (exponentChars e ++ rest) := by simp
  rw [e0, parseUnsigned_parts neg _ _ _ _ _ _ _ _ h1
    (parseFraction_none _ _ (fun c cs e => by cases e; decide))
    (parseExponent_chars e rest hr.noDigit)]
  simp

theorem layout_exponent_more (neg : Bool) (c cb : Char) (tb rest : List Char) (d : Nat)
    (e : Int) (hall : AllDigits (c :: cb :: tb)) (hd : digitVal? c = some (d + 1))
    (hr : NumberEnd rest) :
    parseUnsigned neg ((c :: '.' :: (cb :: tb ++ 'e' :: exponentChars e)) ++ rest)
      = some (ofDecimal neg (digitsValFrom 0 (c :: cb :: tb))
          (e - ((cb :: tb).length : Int)), rest) := by
  have hc : AllDigits [c] := fun x hx => by
    rw [List.mem_singleton.mp hx, hd]; rfl
  have hb : AllDigits (cb :: tb) := fun x hx => hall x (List.mem_cons_of_mem _ hx)
  have h1 := parseNatLit_digits c [] ('.' :: (cb :: tb ++ 'e' :: (exponentChars e ++ rest)))
    d hc hd (noDigitStart_of_head _ _ rfl)
  have h2 := parseFraction_digits (digitsValFrom 0 [c]) cb tb
    ('e' :: (exponentChars e ++ rest)) hb (noDigitStart_of_head _ _ rfl)
  have e0 : (c :: '.' :: (cb :: tb ++ 'e' :: exponentChars e)) ++ rest
      = c :: [] ++ '.' :: (cb :: tb ++ 'e' :: (exponentChars e ++ rest)) := by simp
  rw [e0, parseUnsigned_parts neg _ _ _ _ _ _ _ _ h1 h2
    (parseExponent_chars e rest hr.noDigit)]
  rfl

/-- The text that `Number::toString` lays out for the digits of `s` and the exponent
`n` reads back as `s * 10^(n - k)`, `k` the number of digits. -/
theorem parseUnsigned_layout (neg : Bool) (s : Nat) (hs : 0 < s) (n : Int)
    (rest : List Char) (hr : NumberEnd rest) :
    parseUnsigned neg (layoutDecimal (natToChars s) n ++ rest)
      = some (ofDecimal neg s (n - ((natToChars s).length : Int)), rest) := by
  obtain ⟨hall, hval, c, t, hct, hhead⟩ := natToChars_spec s
  obtain ⟨d, hd⟩ := hhead hs
  unfold layoutDecimal
  simp only []
  split
  · rename_i h
    rw [layout_integer neg s hs _ rest hr, Int.toNat_of_nonneg (by omega)]
  · split
    · rename_i h1 h2
      have hlt : n.toNat < (natToChars s).length := by omega
      have hpos : 0 < n.toNat := by omega
      obtain ⟨ca, ta, hta⟩ : ∃ ca ta, (natToChars s).take n.toNat = ca :: ta := by
        rw [hct]
        obtain ⟨m, hm⟩ : ∃ m, n.toNat = m + 1 := ⟨n.toNat - 1, by omega⟩
        rw [hm]
        exact ⟨c, t.take m, rfl⟩
      have hca : ca = c := by
        have := congrArg List.head? hta
        rw [hct] at this
        obtain ⟨m, hm⟩ : ∃ m, n.toNat = m + 1 := ⟨n.toNat - 1, by omega⟩
        rw [hm] at this
        simpa using this.symm
      obtain ⟨cb, tb, htb⟩ : ∃ cb tb, (natToChars s).drop n.toNat = cb :: tb := by
        cases hdr : (natToChars s).drop n.toNat with
        | nil =>
          have := congrArg List.length hdr
          simp only [List.length_drop, List.length_nil] at this
          omega
        | cons cb tb => exact ⟨cb, tb, rfl⟩
      have happ : (natToChars s).take n.toNat ++ (natToChars s).drop n.toNat = natToChars s :=
        List.take_append_drop _ _
      have hl := layout_point neg _ _ rest ca cb ta tb d hta htb (by rw [happ]; exact hall)
        (by rw [hca]; exact hd) hr
      rw [happ, hval] at hl
      rw [hl]
      congr 3
      simp only [List.length_drop]
      omega
    · split
      · rename_i h1 h2 h3
        have e0 : '0' :: '.' :: (List.replicate (-n).toNat '0' ++ natToChars s) ++ rest
            = '0' :: '.' :: (List.replicate (-n).toNat '0' ++ natToChars s) ++ rest := rfl
        rw [layout_small neg s _ rest hr]
        congr 3
        push_cast
        rw [Int.toNat_of_nonneg (by omega)]
        omega
      · cases t with
        | nil =>
          rw [hct] at hval ⊢
          simp only []
          rw [layout_exponent_one neg c rest d (n - 1) hd hr, hval]
          simp
        | cons cb tb =>
          rw [hct] at hval hall ⊢
          simp only []
          rw [layout_exponent_more neg c cb tb rest d (n - 1) hall hd hr, hval]
          congr 3
          simp only [List.length_cons]
          push_cast
          omega

/-! ## `Number::toString` read back -/

theorem roundToNumber_zero (neg : Bool) (d : Nat) :
    roundToNumber neg 0 d = JSNumber.finite ⟨neg, 0, -1074⟩ := by
  simp [roundToNumber, roundRatio]

theorem ofDecimal_zero (neg : Bool) (p : Int) :
    ofDecimal neg 0 p = JSNumber.finite ⟨neg, 0, -1074⟩ := by
  cases p <;> simp [ofDecimal, roundToNumber_zero]

theorem roundToNumber_withSign (neg neg1 : Bool) (n d : Nat) :
    roundToNumber neg n d = (roundToNumber neg1 n d).withSign neg := by
  unfold roundToNumber
  split <;> rfl

theorem ofDecimal_withSign (neg neg1 : Bool) (s : Nat) (p : Int) :
    ofDecimal neg s p = (ofDecimal neg1 s p).withSign neg := by
  rw [ofDecimal_eq, ofDecimal_eq]
  exact roundToNumber_withSign _ _ _ _

theorem F64.isDouble_abs (x : F64) (h : x.isDouble = true) :
    F64.isDouble ⟨false, x.m, x.e⟩ = true := by
  have hd : roundToNumber x.neg x.ratio.1 x.ratio.2 = JSNumber.finite x := by
    simpa [F64.isDouble] using h
  have hr : F64.ratio ⟨false, x.m, x.e⟩ = x.ratio := rfl
  simp only [F64.isDouble, hr, beq_iff_eq]
  rw [roundToNumber_withSign false x.neg, hd]
  rfl

theorem F64.zero_of_isDouble (x : F64) (h : x.isDouble = true) (hm : x.m = 0) :
    x = ⟨x.neg, 0, -1074⟩ := by
  have hd : roundToNumber x.neg x.ratio.1 x.ratio.2 = JSNumber.finite x := by
    simpa [F64.isDouble] using h
  have hr : x.ratio.1 = 0 := by
    unfold F64.ratio
    cases x.e <;> simp [hm]
  rw [hr, roundToNumber_zero] at hd
  exact (JSNumber.finite.inj hd).symm

theorem parseNumberLit_unsigned (cs : List Char) (r : JSNumber × List Char)
    (h : parseUnsigned false cs = some r) : parseNumberLit cs = some r := by
  cases cs with
  | nil => simp [parseUnsigned, parseNatLit] at h
  | cons c t =>
    rw [parseNumberLit]
    split
    · rename_i hc
      subst hc
      simp [parseUnsigned, parseNatLit, show digitVal? '-' = none from rfl] at h
    · exact h

/-- A finite double that is not the negative zero reads back from its own text. -/
theorem parseNumberLit_toChars (x : F64) (hx : x.isDouble = true)
    (hz : ¬ (x.m = 0 ∧ x.neg = true)) (rest : List Char) (hr : NumberEnd rest) :
    parseNumberLit (x.toChars ++ rest) = some (JSNumber.finite x, rest) := by
  unfold F64.toChars
  split
  · rename_i hm
    have hx0 := x.zero_of_isDouble hx hm
    have hneg : x.neg = false := by
      cases hn : x.neg with
      | false => rfl
      | true => exact absurd ⟨hm, hn⟩ hz
    rw [hneg] at hx0
    apply parseNumberLit_unsigned
    rw [List.singleton_append, parseUnsigned_parts false _ _ _ _ _ _ _ _ (parseNatLit_zero _)
      (parseFraction_none _ rest (fun c cs e => (hr c cs e).2.1))
      (parseExponent_none rest (fun c cs e => (hr c cs e).2.2))]
    rw [ofDecimal_zero, hx0]
  · rename_i hm
    have hy := shortestDecimal_reads ⟨false, x.m, x.e⟩ (x.isDouble_abs hx)
    simp only [] at hy ⊢
    have hs : 0 < (shortestDecimal ⟨false, x.m, x.e⟩).1 := by
      rcases Nat.eq_zero_or_pos (shortestDecimal ⟨false, x.m, x.e⟩).1 with h0 | h0
      · rw [h0, ofDecimal_zero] at hy
        have := congrArg F64.m (JSNumber.finite.inj hy)
        exact absurd this.symm hm
      · exact h0
    have hl := fun neg => parseUnsigned_layout neg _ hs
      ((shortestDecimal ⟨false, x.m, x.e⟩).2
        + ((natToChars (shortestDecimal ⟨false, x.m, x.e⟩).1).length : Int)) rest hr
    simp only [add_sub_cancel_right] at hl
    cases hn : x.neg with
    | true =>
      simp only [if_true, List.cons_append]
      rw [parseNumberLit, if_pos rfl, hl true, ofDecimal_withSign true false, hy]
      simp only [JSNumber.withSign]
      rw [← hn]
    | false =>
      simp only [Bool.false_eq_true, if_false]
      apply parseNumberLit_unsigned
      rw [hl false, hy]
      rw [← hn]

/-! ## Integers in the safe range -/

theorem bitLenAux_spec (fuel : Nat) :
    ∀ n, n ≤ fuel → 0 < n → 2 ^ (bitLenAux fuel n - 1) ≤ n ∧ n < 2 ^ bitLenAux fuel n := by
  induction fuel with
  | zero => intro n h0 hpos; omega
  | succ fuel ih =>
    intro n hle hpos
    rw [bitLenAux]
    rw [if_neg (by omega)]
    split
    · rename_i h64
      have hq : 0 < n / 2 ^ 64 := Nat.div_pos h64 (by positivity)
      have hlt : n / 2 ^ 64 ≤ fuel := by
        have : n / 2 ^ 64 < n := Nat.div_lt_self hpos (by norm_num)
        omega
      obtain ⟨h1, h2⟩ := ih _ hlt hq
      have hb : 0 < bitLenAux fuel (n / 2 ^ 64) := by
        rcases Nat.eq_zero_or_pos (bitLenAux fuel (n / 2 ^ 64)) with h | h
        · rw [h] at h2; simp at h2; omega
        · exact h
      constructor
      · have e : bitLenAux fuel (n / 2 ^ 64) + 64 - 1
            = (bitLenAux fuel (n / 2 ^ 64) - 1) + 64 := by omega
        rw [e, pow_add]
        calc 2 ^ (bitLenAux fuel (n / 2 ^ 64) - 1) * 2 ^ 64
            ≤ (n / 2 ^ 64) * 2 ^ 64 := Nat.mul_le_mul_right _ h1
          _ ≤ n := Nat.div_mul_le_self _ _
      · rw [pow_add]
        exact (Nat.div_lt_iff_lt_mul (by positivity)).mp h2
    · rename_i h64
      rcases Nat.lt_or_ge n 2 with h2 | h2
      · have h1 : n = 1 := by omega
        subst h1
        cases fuel <;> simp [bitLenAux]
      · have hq : 0 < n / 2 := Nat.div_pos h2 (by norm_num)
        have hlt : n / 2 ≤ fuel := by omega
        obtain ⟨h1, h3⟩ := ih _ hlt hq
        have hb : 0 < bitLenAux fuel (n / 2) := by
          rcases Nat.eq_zero_or_pos (bitLenAux fuel (n / 2)) with h | h
          · rw [h] at h3; simp at h3; omega
          · exact h
        constructor
        · have e : bitLenAux fuel (n / 2) + 1 - 1 = (bitLenAux fuel (n / 2) - 1) + 1 := by omega
          rw [e, pow_succ]
          calc 2 ^ (bitLenAux fuel (n / 2) - 1) * 2 ≤ (n / 2) * 2 := Nat.mul_le_mul_right _ h1
            _ ≤ n := Nat.div_mul_le_self _ _
        · rw [pow_succ]
          exact (Nat.div_lt_iff_lt_mul (by norm_num)).mp h3

theorem bitLen_spec (n : Nat) (hpos : 0 < n) :
    2 ^ (bitLen n - 1) ≤ n ∧ n < 2 ^ bitLen n :=
  bitLenAux_spec n n (Nat.le_refl n) hpos

theorem bitLen_le_of_lt (n k : Nat) (hpos : 0 < n) (h : n < 2 ^ k) : bitLen n ≤ k := by
  by_contra hc
  have h1 := (bitLen_spec n hpos).1
  have : 2 ^ k ≤ 2 ^ (bitLen n - 1) := Nat.pow_le_pow_right (by norm_num) (by omega)
  omega

theorem bitLen_pos (n : Nat) (hpos : 0 < n) : 0 < bitLen n := by
  rcases Nat.eq_zero_or_pos (bitLen n) with h | h
  · have := (bitLen_spec n hpos).2
    rw [h] at this
    simp at this
    omega
  · exact h

theorem roundRatio_safe (a : Nat) (hpos : 0 < a) (h : a < 2 ^ 53) :
    roundRatio a 1 = some (a * 2 ^ (53 - bitLen a), (bitLen a : Int) - 53) := by
  have hL := bitLen_le_of_lt a 53 hpos h
  have hL0 := bitLen_pos a hpos
  obtain ⟨hlo, hhi⟩ := bitLen_spec a hpos
  have hb1 : bitLen 1 = 1 := by decide
  have hq1 : 2 ^ 52 ≤ a * 2 ^ (53 - bitLen a) := by
    have : 2 ^ 52 = 2 ^ (bitLen a - 1) * 2 ^ (53 - bitLen a) := by
      rw [← pow_add]; congr 1; omega
    rw [this]
    exact Nat.mul_le_mul_right _ hlo
  have hq2 : a * 2 ^ (53 - bitLen a) < 2 ^ 53 := by
    have : 2 ^ 53 = 2 ^ (bitLen a) * 2 ^ (53 - bitLen a) := by
      rw [← pow_add]; congr 1; omega
    rw [this]
    exact Nat.mul_lt_mul_of_pos_right hhi (by positivity)
  have hs : scaled a 1 ((bitLen a : Int) - 53) = (a * 2 ^ (53 - bitLen a), 0, 1) := by
    unfold scaled
    split
    · rename_i h0
      have : bitLen a = 53 := by omega
      simp [this, Nat.mod_one]
    · rename_i h0
      have : (-((bitLen a : Int) - 53)).toNat = 53 - bitLen a := by omega
      simp [this, Nat.mod_one]
  have he1 : (bitLen a : Int) - (bitLen 1 : Int) - 52 = (bitLen a : Int) - 53 := by
    rw [hb1]; omega
  have i1 : (if a * 2 ^ (53 - bitLen a) < 2 ^ 52 then (bitLen a : Int) - 53 - 1
      else (bitLen a : Int) - 53) = (bitLen a : Int) - 53 := if_neg (by omega)
  have i2 : (if (bitLen a : Int) - 53 < -1074 then (-1074 : Int) else (bitLen a : Int) - 53)
      = (bitLen a : Int) - 53 := if_neg (by omega)
  have i3 : roundHalfEven (a * 2 ^ (53 - bitLen a)) 0 1 = a * 2 ^ (53 - bitLen a) := by
    simp [roundHalfEven]
  unfold roundRatio
  rw [if_neg (by omega)]
  simp only [he1, hs, i1, i2, i3]
  rw [if_neg (by omega), if_neg (by omega)]

theorem F64.ratio_val (x : F64) :
    (x.ratio.1 : ℚ) / (x.ratio.2 : ℚ) = (x.m : ℚ) * (2 : ℚ) ^ x.e := by
  unfold F64.ratio
  cases x.e with
  | ofNat k => simp
  | negSucc k =>
    simp only [Nat.cast_pow, Nat.cast_ofNat, zpow_negSucc]
    rw [div_eq_mul_inv]

theorem natAbs_cast_rat (n : Int) : ((n.natAbs : ℕ) : ℚ) = |(n : ℚ)| := by
  rw [Nat.cast_natAbs, Int.cast_abs]

/-- An integer of magnitude at most `2^53` is a double, with its sign and its value. -/
theorem ofInt_exact (n : Int) (h : n.natAbs ≤ 2 ^ 53) :
    ∃ x, JSNumber.ofInt n = JSNumber.finite x ∧ x.neg = decide (n < 0)
      ∧ (x.m : ℚ) * (2 : ℚ) ^ x.e = (n.natAbs : ℚ) ∧ x.isDouble = true := by
  have key : ∃ m e, roundRatio n.natAbs 1 = some (m, e)
      ∧ (m : ℚ) * (2 : ℚ) ^ e = (n.natAbs : ℚ) := by
    rcases Nat.eq_zero_or_pos n.natAbs with h0 | hpos
    · exact ⟨0, -1074, by rw [h0]; rfl, by rw [h0]; simp⟩
    · rcases Nat.lt_or_ge n.natAbs (2 ^ 53) with hlt | hge
      · refine ⟨_, _, roundRatio_safe _ hpos hlt, ?_⟩
        have hL := bitLen_le_of_lt _ 53 hpos hlt
        have e1 : ((bitLen n.natAbs : Int) - 53) = -((53 - bitLen n.natAbs : ℕ) : Int) := by
          omega
        rw [e1, zpow_neg, zpow_natCast]
        push_cast
        field_simp
      · have e : n.natAbs = 2 ^ 53 := by omega
        refine ⟨2 ^ 52, 1, by rw [e]; decide, ?_⟩
        rw [e]
        norm_num
  obtain ⟨m, e, hr, hv⟩ := key
  have hof : JSNumber.ofInt n = JSNumber.finite ⟨decide (n < 0), m, e⟩ := by
    simp [JSNumber.ofInt, roundToNumber, hr]
  refine ⟨⟨decide (n < 0), m, e⟩, hof, rfl, hv, ?_⟩
  simp only [F64.isDouble, beq_iff_eq]
  rw [← hof]
  unfold JSNumber.ofInt
  apply roundToNumber_congr_rat _ _ _ _ _ (F64.ratio_den_ne _) (by norm_num)
  rw [F64.ratio_val]
  simpa using hv

theorem ofBinary_eq (neg : Bool) (a : Nat) (e : Int) :
    ofBinary neg a e = roundToNumber neg (binRatio a e).1 (binRatio a e).2 := by
  cases e <;> rfl

theorem binRatio_den_ne (a : Nat) (e : Int) : (binRatio a e).2 ≠ 0 := by
  cases e <;> simp [binRatio]

theorem binRatio_val (a : Nat) (e : Int) :
    ((binRatio a e).1 : ℚ) / ((binRatio a e).2 : ℚ) = (a : ℚ) * (2 : ℚ) ^ e := by
  cases e with
  | ofNat k => simp [binRatio]
  | negSucc k =>
    simp only [binRatio, Nat.cast_pow, Nat.cast_ofNat, zpow_negSucc]
    rw [div_eq_mul_inv]

theorem F64.signed_val (x : F64) (n : Int) (hneg : x.neg = decide (n < 0))
    (hv : (x.m : ℚ) * (2 : ℚ) ^ x.e = (n.natAbs : ℚ)) :
    (x.signed : ℚ) * (2 : ℚ) ^ x.e = (n : ℚ) := by
  unfold F64.signed
  rw [hneg]
  by_cases h : n < 0
  · simp only [h, decide_True, if_true, Int.cast_neg, Int.cast_natCast, neg_mul, hv]
    rw [natAbs_cast_rat, abs_of_neg (by exact_mod_cast h)]
    ring
  · simp only [h, decide_False, Bool.false_eq_true, if_false, Int.cast_natCast, hv]
    rw [natAbs_cast_rat, abs_of_nonneg (by exact_mod_cast (not_lt.mp h))]

/-- The sum of two doubles whose values are the integers `n` and `d` is the double
nearest to `n + d`. -/
theorem F64.add_of_int (x y : F64) (n d : Int)
    (hx : (x.signed : ℚ) * (2 : ℚ) ^ x.e = (n : ℚ))
    (hy : (y.signed : ℚ) * (2 : ℚ) ^ y.e = (d : ℚ))
    (hz : n + d = 0 → (x.neg && y.neg) = false) :
    F64.add x y = JSNumber.ofInt (n + d) := by
  unfold F64.add
  simp only []
  generalize he : (if x.e ≤ y.e then x.e else y.e) = e
  have hex : e ≤ x.e := by rw [← he]; split <;> omega
  have hey : e ≤ y.e := by rw [← he]; split <;> omega
  generalize hs : x.signed * ((2 ^ (x.e - e).toNat : ℕ) : Int)
    + y.signed * ((2 ^ (y.e - e).toNat : ℕ) : Int) = s
  have h2 : (2 : ℚ) ≠ 0 := by norm_num
  have hsv : (s : ℚ) * (2 : ℚ) ^ e = ((n + d : Int) : ℚ) := by
    rw [← hs]
    push_cast
    rw [← hx, ← hy, add_mul, mul_assoc, mul_assoc, ← zpow_natCast, ← zpow_natCast,
      ← zpow_add₀ h2, ← zpow_add₀ h2, Int.toNat_of_nonneg (by omega),
      Int.toNat_of_nonneg (by omega)]
    simp
  have hpos : (0 : ℚ) < (2 : ℚ) ^ e := zpow_pos (by norm_num) e
  split
  · rename_i h0
    have hnd : n + d = 0 := by
      rw [h0] at hsv
      simp at hsv
      exact_mod_cast hsv.symm
    rw [hz hnd, hnd]
    rfl
  · rename_i h0
    rw [ofBinary_eq]
    unfold JSNumber.ofInt
    have hsign : decide (s < 0) = decide (n + d < 0) := by
      have : s < 0 ↔ n + d < 0 := by
        constructor
        · intro h
          have : (s : ℚ) * (2 : ℚ) ^ e < 0 := mul_neg_of_neg_of_pos (by exact_mod_cast h) hpos
          rw [hsv] at this
          exact_mod_cast this
        · intro h
          have h1 : (s : ℚ) * (2 : ℚ) ^ e < 0 := by rw [hsv]; exact_mod_cast h
          by_contra hc
          have : (0 : ℚ) ≤ (s : ℚ) * (2 : ℚ) ^ e :=
            mul_nonneg (by exact_mod_cast (not_lt.mp hc)) hpos.le
          linarith
      simp [this]
    rw [hsign]
    apply roundToNumber_congr_rat _ _ _ _ _ (binRatio_den_ne _ _) (by norm_num)
    rw [binRatio_val, natAbs_cast_rat, natAbs_cast_rat]
    simp only [Nat.cast_one, div_one]
    rw [← hsv, abs_mul, abs_of_pos hpos]

theorem JSNumber.add_ofInt (n d : Int) (hn : n.natAbs ≤ 2 ^ 53) (hd : d.natAbs ≤ 2 ^ 53) :
    (JSNumber.ofInt n).add (JSNumber.ofInt d) = JSNumber.ofInt (n + d) := by
  obtain ⟨x, hx, hxn, hxv, _⟩ := ofInt_exact n hn
  obtain ⟨y, hy, hyn, hyv, _⟩ := ofInt_exact d hd
  rw [hx, hy]
  simp only [JSNumber.add]
  apply F64.add_of_int x y n d (x.signed_val n hxn hxv) (y.signed_val d hyn hyv)
  intro h0
  rw [hxn, hyn]
  by_cases h1 : n < 0
  · have : ¬ d < 0 := by omega
    simp [this]
  · simp [h1]

theorem JSNumber.sub_ofInt (n d : Int) (hn : n.natAbs ≤ 2 ^ 53) (hd : d.natAbs ≤ 2 ^ 53) :
    (JSNumber.ofInt n).sub (JSNumber.ofInt d) = JSNumber.ofInt (n - d) := by
  obtain ⟨x, hx, hxn, hxv, _⟩ := ofInt_exact n hn
  obtain ⟨y, hy, hyn, hyv, _⟩ := ofInt_exact d hd
  rw [hx, hy, Int.sub_eq_add_neg]
  simp only [JSNumber.sub, JSNumber.negate, JSNumber.add]
  have hyv2 : (y.negate.signed : ℚ) * (2 : ℚ) ^ y.negate.e = ((-d : Int) : ℚ) := by
    have h := y.signed_val d hyn hyv
    have e1 : y.negate.signed = -y.signed := by
      unfold F64.negate F64.signed
      cases y.neg <;> simp
    have e2 : y.negate.e = y.e := rfl
    rw [e1, e2]
    push_cast
    rw [neg_mul, h]
  apply F64.add_of_int x y.negate n (-d) (x.signed_val n hxn hxv) hyv2
  intro h0
  rw [hxn]
  by_cases h1 : n < 0
  · have : d < 0 := by omega
    simp [F64.negate, hyn, this]
  · simp [h1]

/-! ## Strings: reading back what was written -/

theorem hexVal_hexChar (d : Nat) (h : d < 16) : hexVal? (hexChar d) = some d := by
  interval_cases d <;> rfl

theorem unicodeUnit_control (c : Char) (h : c.toNat < 32) :
    unicodeUnit '0' '0' (hexChar (c.toNat / 16)) (hexChar (c.toNat % 16)) = some c.toNat := by
  have h1 : hexVal? (hexChar (c.toNat / 16)) = some (c.toNat / 16) :=
    hexVal_hexChar _ (by omega)
  have h2 : hexVal? (hexChar (c.toNat % 16)) = some (c.toNat % 16) :=
    hexVal_hexChar _ (by omega)
  have h0 : hexVal? '0' = some 0 := rfl
  simp only [unicodeUnit, h0, h1, h2]
  congr 1
  omega

theorem readEscape_simple (e ch : Char) (more : List Char) (he : e ≠ 'u')
    (hs : simpleEscape e = some ch) : readEscape (e :: more) = some (ch, more) := by
  simp [readEscape, he, hs]

theorem readEscape_control (c : Char) (more : List Char) (h : c.toNat < 32) :
    readEscape ('u' :: '0' :: '0' :: hexChar (c.toNat / 16) :: hexChar (c.toNat % 16) :: more)
      = some (c, more) := by
  have h1 : ¬ (55296 ≤ c.toNat ∧ c.toNat < 56320) := by omega
  have h2 : ¬ (56320 ≤ c.toNat ∧ c.toNat < 57344) := by omega
  simp [readEscape, unicodeUnit_control c h, h1, h2, Char.ofNat_toNat]

theorem parseStrAux_escape (fuel : Nat) (ch : Char) (cs more s r : List Char)
    (he : readEscape cs = some (ch, more)) (h : parseStrAux fuel more = some (s, r)) :
    parseStrAux (fuel + 1) ('\\' :: cs) = some (ch :: s, r) := by
  rw [parseStrAux]
  simp [he, h]

theorem parseStrAux_plain (fuel : Nat) (c : Char) (more s r : List Char)
    (h1 : c ≠ '"') (h2 : c ≠ '\\') (h3 : ¬ c.toNat < 32)
    (h : parseStrAux fuel more = some (s, r)) :
    parseStrAux (fuel + 1) (c :: more) = some (c :: s, r) := by
  rw [parseStrAux]
  simp [h1, h2, h3, h]

theorem parseStrAux_quoteChar (fuel : Nat) (c : Char) (more s r : List Char)
    (h : parseStrAux fuel more = some (s, r)) :
    parseStrAux (fuel + 1) (quoteChar c ++ more) = some (c :: s, r) := by
  unfold quoteChar
  split
  · subst_vars
    exact parseStrAux_escape fuel _ _ more s r (readEscape_simple _ _ _ (by decide) (by decide)) h
  split
  · subst_vars
    exact parseStrAux_escape fuel _ _ more s r (readEscape_simple _ _ _ (by decide) (by decide)) h
  split
  · subst_vars
    exact parseStrAux_escape fuel _ _ more s r (readEscape_simple _ _ _ (by decide) (by decide)) h
  split
  · subst_vars
    exact parseStrAux_escape fuel _ _ more s r (readEscape_simple _ _ _ (by decide) (by decide)) h
  split
  · subst_vars
    exact parseStrAux_escape fuel _ _ more s r (readEscape_simple _ _ _ (by decide) (by decide)) h
  split
  · subst_vars
    exact parseStrAux_escape fuel _ _ more s r (readEscape_simple _ _ _ (by decide) (by decide)) h
  split
  · subst_vars
    exact parseStrAux_escape fuel _ _ more s r (readEscape_simple _ _ _ (by decide) (by decide)) h
  split
  · rename_i hlt
    exact parseStrAux_escape fuel _ _ more s r (readEscape_control c more hlt) h
  · rename_i h1 h2 _ _ _ _ _ hlt
    exact parseStrAux_plain fuel c _ _ _ h1 h2 hlt h

theorem quoteChar_length_pos (c : Char) : 0 < (quoteChar c).length := by
  unfold quoteChar
  repeat' split
  all_goals simp

theorem quoteChars_length (cs : List Char) : cs.length ≤ (quoteChars cs).length := by
  induction cs with
  | nil => simp [quoteChars]
  | cons c cs ih =>
    simp only [quoteChars, List.length_append, List.length_cons]
    have := quoteChar_length_pos c
    omega

theorem parseStrAux_quoteChars (cs rest : List Char) (extra : Nat) :
    parseStrAux (cs.length + 1 + extra) (quoteChars cs ++ '"' :: rest) = some (cs, rest) := by
  induction cs with
  | nil =>
    simp only [quoteChars, List.nil_append, List.length_nil]
    rw [show 0 + 1 + extra = extra + 1 by omega, parseStrAux]
    simp
  | cons c cs ih =>
    simp only [quoteChars, List.append_assoc, List.length_cons]
    rw [show cs.length + 1 + 1 + extra = (cs.length + 1 + extra) + 1 by omega]
    exact parseStrAux_quoteChar _ c _ cs rest ih

theorem parseStrBody_quoteChars (cs rest : List Char) :
    parseStrBody (quoteChars cs ++ '"' :: rest) = some (cs, rest) := by
  unfold parseStrBody
  have hl : (quoteChars cs ++ '"' :: rest).length
      = cs.length + 1 + ((quoteChars cs).length - cs.length + rest.length) := by
    have := quoteChars_length cs
    simp only [List.length_append, List.length_cons]
    omega
  rw [hl]
  exact parseStrAux_quoteChars cs rest _

/-! ## Values: reading back what was written -/

theorem valueStart_digitChar (d : Nat) (h : d < 10) : valueStart (digitChar d) = true := by
  interval_cases d <;> rfl

theorem valueStart_facts (c : Char) (h : valueStart c = true) :
    isWs c = false ∧ c ≠ ']' ∧ c ≠ '}' ∧ c ≠ ',' ∧ c ≠ ':' := by
  refine ⟨?_, ?_, ?_, ?_, ?_⟩
  · cases hw : isWs c with
    | false => rfl
    | true =>
      simp only [isWs, Bool.or_eq_true, decide_eq_true_eq] at hw
      rcases hw with ((rfl | rfl) | rfl) | rfl <;> revert h <;> decide
  all_goals (intro hc; subst hc; revert h; decide)

theorem layoutDecimal_head (s : Nat) (n : Int) :
    ∃ c t, layoutDecimal (natToChars s) n = c :: t ∧ (digitVal? c).isSome = true := by
  obtain ⟨hall, _, c, t, hct, _⟩ := natToChars_spec s
  have hc : (digitVal? c).isSome = true := hall c (by rw [hct]; exact List.mem_cons_self _ _)
  unfold layoutDecimal
  simp only []
  split
  · exact ⟨c, _, by rw [hct]; rfl, hc⟩
  · split
    · rename_i h1 h2
      obtain ⟨m, hm⟩ : ∃ m, n.toNat = m + 1 := ⟨n.toNat - 1, by omega⟩
      exact ⟨c, _, by rw [hct, hm]; rfl, hc⟩
    · split
      · exact ⟨'0', _, rfl, rfl⟩
      · rw [hct]
        cases t with
        | nil => exact ⟨c, _, rfl, hc⟩
        | cons cb tb => exact ⟨c, _, rfl, hc⟩

theorem F64.toChars_head (x : F64) :
    ∃ c t, x.toChars = c :: t ∧ (c = '-' ∨ (digitVal? c).isSome = true) := by
  unfold F64.toChars
  split
  · exact ⟨'0', [], rfl, Or.inr rfl⟩
  · simp only []
    obtain ⟨c, t, hct, hc⟩ := layoutDecimal_head (shortestDecimal ⟨false, x.m, x.e⟩).1
      ((shortestDecimal ⟨false, x.m, x.e⟩).2
        + ((natToChars (shortestDecimal ⟨false, x.m, x.e⟩).1).length : Int))
    split
    · exact ⟨'-', _, rfl, Or.inl rfl⟩
    · exact ⟨c, t, hct, Or.inr hc⟩

theorem valueStart_of_number (c : Char) (h : c = '-' ∨ (digitVal? c).isSome = true) :
    valueStart c = true := by
  rcases h with rfl | h
  · rfl
  · simp [valueStart, h]

theorem JSON.serialize_head (v : JSVal) (t : List Char) (h : JSON.serialize v = some t) :
    ∃ c t1, t = c :: t1 ∧ valueStart c = true := by
  cases v with
  | undefined => simp [JSON.serialize] at h
  | null => simp [JSON.serialize] at h; subst h; exact ⟨_, _, rfl, rfl⟩
  | bool b =>
    cases b <;> simp [JSON.serialize] at h <;> subst h <;> exact ⟨_, _, rfl, rfl⟩
  | num x =>
    cases x with
    | finite f =>
      simp [JSON.serialize] at h; subst h
      obtain ⟨c, t, hct, hc⟩ := f.toChars_head
      exact ⟨c, t, hct, valueStart_of_number c hc⟩
    | inf s => simp [JSON.serialize] at h; subst h; exact ⟨_, _, rfl, rfl⟩
    | nan => simp [JSON.serialize] at h; subst h; exact ⟨_, _, rfl, rfl⟩
  | str s => simp [JSON.serialize, quoteJSONString] at h; subst h; exact ⟨_, _, rfl, rfl⟩
  | arr xs => simp [JSON.serialize] at h; subst h; exact ⟨_, _, rfl, rfl⟩
  | obj kvs => simp [JSON.serialize] at h; subst h; exact ⟨_, _, rfl, rfl⟩

theorem JSON.serialize_isSome (v : JSVal) (h : isJSON v = true) :
    ∃ t, JSON.serialize v = some t := by
  cases v with
  | undefined => simp [isJSON] at h
  | num x =>
    cases x with
    | finite f => exact ⟨_, by rw [JSON.serialize]⟩
    | inf s => simp [isJSON] at h
    | nan => simp [isJSON] at h
  | bool b => cases b <;> exact ⟨_, by rw [JSON.serialize]⟩
  | _ => exact ⟨_, by rw [JSON.serialize]⟩

theorem skipWs_valueStart (c : Char) (t : List Char) (h : valueStart c = true) :
    skipWs (c :: t) = c :: t := by
  simp [skipWs, (valueStart_facts c h).1]

theorem parseValue_word (fuel : Nat) (rest : List Char) :
    parseValue (fuel + 1) ('n' :: 'u' :: 'l' :: 'l' :: rest) = some (JSVal.null, rest)
    ∧ parseValue (fuel + 1) ('t' :: 'r' :: 'u' :: 'e' :: rest) = some (JSVal.bool true, rest)
    ∧ parseValue (fuel + 1) ('f' :: 'a' :: 'l' :: 's' :: 'e' :: rest)
        = some (JSVal.bool false, rest) := by
  refine ⟨?_, ?_, ?_⟩ <;>
  · rw [parseValue]
    simp [skipWs, isWs, expectWord]

theorem parseValue_number (fuel : Nat) (c : Char) (cs : List Char)
    (h : c = '-' ∨ (digitVal? c).isSome = true) :
    parseValue (fuel + 1) (c :: cs)
      = (parseNumberLit (c :: cs)).map (fun r => (JSVal.num r.1, r.2)) := by
  have hc : isWs c = false ∧ c ≠ 'n' ∧ c ≠ 't' ∧ c ≠ 'f' ∧ c ≠ '"' ∧ c ≠ '['
      ∧ c ≠ '{' := by
    rcases h with rfl | hd
    · decide
    · refine ⟨?_, ?_, ?_, ?_, ?_, ?_, ?_⟩
      · cases hw : isWs c with
        | false => rfl
        | true =>
          simp only [isWs, Bool.or_eq_true, decide_eq_true_eq] at hw
          rcases hw with ((rfl | rfl) | rfl) | rfl <;> revert hd <;> decide
      all_goals (intro hc; subst hc; revert hd; decide)
  obtain ⟨h0, h1, h2, h3, h4, h5, h6⟩ := hc
  rw [parseValue]
  simp [skipWs, h0, h1, h2, h3, h4, h5, h6]

theorem parseValue_string (fuel : Nat) (cs : List Char) :
    parseValue (fuel + 1) ('"' :: cs)
      = (parseStrBody cs).map (fun r => (JSVal.str (String.mk r.1), r.2)) := by
  rw [parseValue]
  simp [skipWs, isWs]

theorem parseValue_array (fuel : Nat) (c1 : Char) (cs : List Char)
    (h : skipWs (c1 :: cs) = c1 :: cs) :
    parseValue (fuel + 1) ('[' :: c1 :: cs)
      = if c1 = ']' then some (JSVal.arr [], cs)
        else (parseElems fuel (c1 :: cs)).map (fun r => (JSVal.arr r.1, r.2)) := by
  have e : skipWs ('[' :: c1 :: cs) = '[' :: c1 :: cs := by
    rw [skipWs]; rfl
  rw [parseValue, e]
  simp [h]

theorem parseValue_object (fuel : Nat) (c1 : Char) (cs : List Char)
    (h : skipWs (c1 :: cs) = c1 :: cs) :
    parseValue (fuel + 1) ('{' :: c1 :: cs)
      = if c1 = '}' then some (JSVal.obj [], cs)
        else (parseMembers fuel [] (c1 :: cs)).map (fun r => (JSVal.obj r.1, r.2)) := by
  have e : skipWs ('{' :: c1 :: cs) = '{' :: c1 :: cs := by
    rw [skipWs]; rfl
  rw [parseValue, e]
  simp [h]

theorem parseElems_step (fuel : Nat) (cs r r1 : List Char) (v : JSVal) (c : Char)
    (hv : parseValue fuel cs = some (v, r)) (hr : skipWs r = c :: r1) :
    parseElems (fuel + 1) cs
      = if c = ',' then (parseElems fuel r1).map (fun q => (v :: q.1, q.2))
        else if c = ']' then some ([v], r1) else none := by
  rw [parseElems]
  simp [hv, hr]

theorem parseMembers_step (fuel : Nat) (acc : List (String × JSVal))
    (cs r1 r2 r3 r4 k : List Char) (v : JSVal) (c2 : Char)
    (hk : parseStrBody cs = some (k, r1)) (h1 : skipWs r1 = ':' :: r2)
    (hv : parseValue fuel r2 = some (v, r3)) (h3 : skipWs r3 = c2 :: r4) :
    parseMembers (fuel + 1) acc ('"' :: cs)
      = if c2 = ',' then parseMembers fuel (objSet acc (String.mk k) v) r4
        else if c2 = '}' then some (objSet acc (String.mk k) v, r4) else none := by
  rw [parseMembers]
  simp [skipWs, isWs, hk, h1, hv, h3]

theorem objSet_fresh (acc : List (String × JSVal)) (k : String) (v : JSVal)
    (h : ∀ p ∈ acc, p.1 ≠ k) : objSet acc k v = acc ++ [(k, v)] := by
  induction acc with
  | nil => rfl
  | cons p acc ih =>
    obtain ⟨k1, v1⟩ := p
    have h1 : k1 ≠ k := h (k1, v1) (List.mem_cons_self _ _)
    simp only [objSet, h1, if_false, List.cons_append]
    rw [ih (fun q hq => h q (List.mem_cons_of_mem _ hq))]

theorem foldl_objSet_fresh (kvs acc : List (String × JSVal))
    (hj : distinctKeys kvs = true) (hd : ∀ p ∈ acc, ∀ q ∈ kvs, p.1 ≠ q.1) :
    kvs.foldl (fun a p => objSet a p.1 p.2) acc = acc ++ kvs := by
  induction kvs generalizing acc with
  | nil => simp
  | cons q rest ih =>
    obtain ⟨k, v⟩ := q
    simp only [distinctKeys, Bool.and_eq_true, Bool.not_eq_true', List.any_eq_false,
      beq_iff_eq] at hj
    obtain ⟨hk, hrest⟩ := hj
    simp only [List.foldl_cons]
    rw [objSet_fresh acc k v (fun p hp => hd p hp (k, v) (List.mem_cons_self _ _))]
    rw [ih (acc ++ [(k, v)]) hrest]
    · simp
    · intro p hp q hq
      rcases List.mem_append.mp hp with hp | hp
      · exact hd p hp q (List.mem_cons_of_mem _ hq)
      · simp only [List.mem_singleton] at hp
        subst hp
        exact fun e => hk q hq e.symm

theorem readBackMembers_any (kvs : List (String × JSVal)) (k : String) :
    (readBackMembers kvs).any (fun p => p.1 == k) = kvs.any (fun p => p.1 == k) := by
  induction kvs with
  | nil => rfl
  | cons q rest ih =>
    obtain ⟨k1, v⟩ := q
    simp only [readBackMembers, List.any_cons, ih]

theorem distinctKeys_readBack (kvs : List (String × JSVal)) (h : membersJSON kvs = true) :
    distinctKeys (readBackMembers kvs) = true := by
  induction kvs with
  | nil => rfl
  | cons q rest ih =>
    obtain ⟨k, v⟩ := q
    simp only [membersJSON, Bool.and_eq_true] at h
    simp only [readBackMembers, distinctKeys, readBackMembers_any, Bool.and_eq_true]
    exact ⟨h.1.2, ih h.2⟩

theorem JSON.serializeElems_cons (x : JSVal) (xs : List JSVal) (t : List Char)
    (h : JSON.serialize x = some t) :
    JSON.serializeElems (x :: xs)
      = t ++ (match xs with | [] => [] | _ :: _ => ',' :: JSON.serializeElems xs) := by
  cases xs with
  | nil => simp [JSON.serializeElems, h]
  | cons y ys => simp [JSON.serializeElems, h]

theorem JSON.serializeMembers_false (kvs : List (String × JSVal))
    (hj : membersJSON kvs = true) (hne : kvs ≠ []) :
    JSON.serializeMembers false kvs = ',' :: JSON.serializeMembers true kvs := by
  cases kvs with
  | nil => exact absurd rfl hne
  | cons q rest =>
    obtain ⟨k, v⟩ := q
    simp only [membersJSON, Bool.and_eq_true] at hj
    obtain ⟨t, ht⟩ := JSON.serialize_isSome v hj.1.1
    simp [JSON.serializeMembers, ht]

theorem readCost_pos (v : JSVal) : 0 < readCost v := by
  cases v <;> simp [readCost]

theorem numberEnd_cons (c : Char) (cs : List Char)
    (h : digitVal? c = none ∧ c ≠ '.' ∧ c ≠ 'e' ∧ c ≠ 'E') : NumberEnd (c :: cs) := by
  intro c1 cs1 e
  cases e
  exact h

theorem parseNumberLit_readBack (x : F64) (hx : x.isDouble = true) (rest : List Char)
    (hr : NumberEnd rest) :
    parseNumberLit (x.toChars ++ rest)
      = some (JSNumber.finite (if x.m = 0 then ⟨false, x.m, x.e⟩ else x), rest) := by
  by_cases hm : x.m = 0
  · have h := parseNumberLit_toChars ⟨false, x.m, x.e⟩ (x.isDouble_abs hx)
      (by simp) rest hr
    have e : F64.toChars ⟨false, x.m, x.e⟩ = x.toChars := by
      simp [F64.toChars, hm]
    rw [e] at h
    rw [h, if_pos hm]
  · rw [if_neg hm]
    exact parseNumberLit_toChars x hx (fun h => hm h.1) rest hr

theorem readsBack_value (fuel : Nat) (ih : ReadsBack fuel) (v : JSVal) (t rest : List Char)
    (hj : isJSON v = true) (hs : JSON.serialize v = some t) (hc : readCost v ≤ fuel + 1)
    (hr : NumberEnd rest) :
    parseValue (fuel + 1) (t ++ rest) = some (readBack v, rest) := by
  obtain ⟨_, ihE, ihM⟩ := ih
  cases v with
  | undefined => simp [isJSON] at hj
  | null =>
    simp only [JSON.serialize, Option.some.injEq] at hs; subst hs
    exact (parseValue_word fuel rest).1
  | bool b =>
    cases b <;> simp only [JSON.serialize, Option.some.injEq] at hs <;> subst hs
    · exact (parseValue_word fuel rest).2.2
    · exact (parseValue_word fuel rest).2.1
  | num x =>
    cases x with
    | inf s => simp [isJSON] at hj
    | nan => simp [isJSON] at hj
    | finite f =>
      simp only [JSON.serialize, Option.some.injEq] at hs; subst hs
      simp only [isJSON] at hj
      obtain ⟨c, t1, ht, hcd⟩ := f.toChars_head
      have hp := parseNumberLit_readBack f hj rest hr
      rw [ht] at hp ⊢
      rw [List.cons_append] at hp ⊢
      rw [parseValue_number fuel c _ hcd, hp]
      rfl
  | str s =>
    simp only [JSON.serialize, Option.some.injEq] at hs; subst hs
    simp only [quoteJSONString, List.cons_append, List.append_assoc, List.singleton_append]
    rw [parseValue_string, parseStrBody_quoteChars]
    rfl
  | arr xs =>
    simp only [JSON.serialize, Option.some.injEq] at hs; subst hs
    simp only [List.cons_append, List.append_assoc, List.singleton_append, List.nil_append]
    cases xs with
    | nil =>
      simp only [JSON.serializeElems, List.nil_append]
      rw [parseValue_array fuel _ _ (by rw [skipWs]; rfl)]
      simp [readBack, readBackList]
    | cons x xs =>
      simp only [isJSON] at hj
      have hjx : isJSON x = true := by
        simp only [allJSON, Bool.and_eq_true] at hj; exact hj.1
      obtain ⟨tx, htx⟩ := JSON.serialize_isSome x hjx
      obtain ⟨c, t1, ht1, hvs⟩ := JSON.serialize_head x tx htx
      have hE := ihE (x :: xs) rest (by simp) hj (by simp only [readCost] at hc; omega)
      have hshape : ∃ t2, JSON.serializeElems (x :: xs) ++ ']' :: rest = c :: t2 := by
        rw [JSON.serializeElems_cons x xs tx htx, ht1]
        simp only [List.cons_append]
        exact ⟨_, rfl⟩
      obtain ⟨t2, ht2⟩ := hshape
      rw [ht2] at hE ⊢
      rw [parseValue_array fuel c t2 (skipWs_valueStart c t2 hvs),
        if_neg (valueStart_facts c hvs).2.1, hE]
      simp [readBack]
  | obj kvs =>
    simp only [JSON.serialize, Option.some.injEq] at hs; subst hs
    simp only [List.cons_append, List.append_assoc, List.singleton_append, List.nil_append]
    cases kvs with
    | nil =>
      simp only [JSON.serializeMembers, List.nil_append]
      rw [parseValue_object fuel _ _ (by rw [skipWs]; rfl)]
      simp [readBack, readBackMembers]
    | cons q kvs =>
      obtain ⟨k, v⟩ := q
      simp only [isJSON] at hj
      have hjv : isJSON v = true := by
        simp only [membersJSON, Bool.and_eq_true] at hj; exact hj.1.1
      obtain ⟨tv, htv⟩ := JSON.serialize_isSome v hjv
      have hM := ihM ((k, v) :: kvs) [] rest (by simp) hj
        (by simp only [readCost] at hc; omega)
      have hshape : ∃ t2, JSON.serializeMembers true ((k, v) :: kvs) ++ '}' :: rest
          = '"' :: t2 := by
        simp only [JSON.serializeMembers, htv, quoteJSONString, if_true, List.nil_append,
          List.cons_append]
        exact ⟨_, rfl⟩
      obtain ⟨t2, ht2⟩ := hshape
      rw [ht2] at hM ⊢
      rw [parseValue_object fuel '"' t2 (by rw [skipWs]; rfl), if_neg (by decide), hM]
      rw [foldl_objSet_fresh _ [] (distinctKeys_readBack _ hj) (by simp)]
      simp [readBack]

theorem readsBack_elems (fuel : Nat) (ih : ReadsBack fuel) (xs : List JSVal)
    (rest : List Char) (hne : xs ≠ []) (hj : allJSON xs = true)
    (hc : elemsCost xs ≤ fuel + 1) :
    parseElems (fuel + 1) (JSON.serializeElems xs ++ ']' :: rest)
      = some (readBackList xs, rest) := by
  obtain ⟨ihV, ihE, _⟩ := ih
  cases xs with
  | nil => exact absurd rfl hne
  | cons x xs =>
    simp only [allJSON, Bool.and_eq_true] at hj
    simp only [elemsCost] at hc
    obtain ⟨tx, htx⟩ := JSON.serialize_isSome x hj.1
    rw [JSON.serializeElems_cons x xs tx htx, List.append_assoc]
    cases xs with
    | nil =>
      simp only [List.nil_append]
      have hV := ihV x tx (']' :: rest) hj.1 htx (by omega) (numberEnd_cons _ _ (by decide))
      rw [parseElems_step fuel _ _ rest (readBack x) ']' hV (by rw [skipWs]; rfl)]
      simp [readBackList]
    | cons y ys =>
      simp only [List.cons_append]
      have hV := ihV x tx (',' :: (JSON.serializeElems (y :: ys) ++ ']' :: rest)) hj.1 htx
        (by omega) (numberEnd_cons _ _ (by decide))
      rw [parseElems_step fuel _ _ _ (readBack x) ',' hV (by rw [skipWs]; rfl)]
      rw [if_pos rfl, ihE (y :: ys) rest (by simp) hj.2 (by omega)]
      simp [readBackList]

theorem readsBack_members (fuel : Nat) (ih : ReadsBack fuel) (kvs acc : List (String × JSVal))
    (rest : List Char) (hne : kvs ≠ []) (hj : membersJSON kvs = true)
    (hc : membersCost kvs ≤ fuel + 1) :
    parseMembers (fuel + 1) acc (JSON.serializeMembers true kvs ++ '}' :: rest)
      = some ((readBackMembers kvs).foldl (fun a p => objSet a p.1 p.2) acc, rest) := by
  obtain ⟨ihV, _, ihM⟩ := ih
  cases kvs with
  | nil => exact absurd rfl hne
  | cons q kvs =>
    obtain ⟨k, v⟩ := q
    have hj1 := hj
    simp only [membersJSON, Bool.and_eq_true] at hj1
    simp only [membersCost] at hc
    obtain ⟨tv, htv⟩ := JSON.serialize_isSome v hj1.1.1
    simp only [JSON.serializeMembers, htv, quoteJSONString, if_true, List.nil_append,
      List.cons_append, List.append_assoc, List.singleton_append, List.foldl_cons,
      readBackMembers]
    have hK := parseStrBody_quoteChars k.data
      (':' :: (tv ++ (JSON.serializeMembers false kvs ++ '}' :: rest)))
    cases kvs with
    | nil =>
      simp only [JSON.serializeMembers, List.nil_append, List.foldl_nil] at hK ⊢
      have hV := ihV v tv ('}' :: rest) hj1.1.1 htv (by omega)
        (numberEnd_cons _ _ (by decide))
      rw [parseMembers_step fuel acc _ _ _ _ rest k.data (readBack v) '}' hK
        (by rw [skipWs]; rfl) hV (by rw [skipWs]; rfl)]
      simp [readBackMembers]
    | cons q2 kvs2 =>
      rw [JSON.serializeMembers_false (q2 :: kvs2) hj1.2 (by simp)] at hK ⊢
      simp only [List.cons_append] at hK ⊢
      have hV := ihV v tv (',' :: (JSON.serializeMembers true (q2 :: kvs2) ++ '}' :: rest))
        hj1.1.1 htv (by omega) (numberEnd_cons _ _ (by decide))
      rw [parseMembers_step fuel acc _ _ _ _ _ k.data (readBack v) ',' hK
        (by rw [skipWs]; rfl) hV (by rw [skipWs]; rfl)]
      rw [if_pos rfl, ihM (q2 :: kvs2) _ rest (by simp) hj1.2 (by omega)]

theorem readsBack (fuel : Nat) : ReadsBack fuel := by
  induction fuel with
  | zero =>
    refine ⟨?_, ?_, ?_⟩
    · intro v t rest _ _ hc _
      have := readCost_pos v
      omega
    · intro xs rest hne _ hc
      cases xs with
      | nil => exact absurd rfl hne
      | cons x xs => simp only [elemsCost] at hc; omega
    · intro kvs acc rest hne _ hc
      cases kvs with
      | nil => exact absurd rfl hne
      | cons q kvs => obtain ⟨k, v⟩ := q; simp only [membersCost] at hc; omega
  | succ fuel ih =>
    exact ⟨fun v t rest hj hs hc hr => readsBack_value fuel ih v t rest hj hs hc hr,
      fun xs rest hne hj hc => readsBack_elems fuel ih xs rest hne hj hc,
      fun kvs acc rest hne hj hc => readsBack_members fuel ih kvs acc rest hne hj hc⟩

theorem costBound (n : Nat) : CostBound n := by
  induction n with
  | zero =>
    refine ⟨?_, ?_, ?_⟩
    · intro v t _ _ hc
      have := readCost_pos v
      omega
    · intro xs _ hc; omega
    · intro kvs first _ hc; omega
  | succ n ih =>
    obtain ⟨ihV, ihE, ihM⟩ := ih
    refine ⟨?_, ?_, ?_⟩
    · intro v t hj hs hc
      obtain ⟨c, t1, ht, _⟩ := JSON.serialize_head v t hs
      have hlen : 1 ≤ t.length := by rw [ht]; simp
      cases v with
      | arr xs =>
        simp only [JSON.serialize, Option.some.injEq] at hs
        simp only [readCost] at hc ⊢
        simp only [isJSON] at hj
        have := ihE xs hj (by omega)
        rw [← hs]
        simp only [List.length_cons, List.length_append, List.length_nil]
        omega
      | obj kvs =>
        simp only [JSON.serialize, Option.some.injEq] at hs
        simp only [readCost] at hc ⊢
        simp only [isJSON] at hj
        have := ihM kvs true hj (by omega)
        rw [← hs]
        simp only [List.length_cons, List.length_append, List.length_nil]
        omega
      | _ => simp only [readCost]; omega
    · intro xs hj hc
      cases xs with
      | nil => simp [elemsCost]
      | cons x xs =>
        simp only [allJSON, Bool.and_eq_true] at hj
        simp only [elemsCost] at hc ⊢
        obtain ⟨tx, htx⟩ := JSON.serialize_isSome x hj.1
        have h1 := ihV x tx hj.1 htx (by omega)
        have h2 := ihE xs hj.2 (by omega)
        rw [JSON.serializeElems_cons x xs tx htx]
        cases xs with
        | nil => simp only [elemsCost, List.append_nil]; omega
        | cons y ys =>
          simp only [List.length_append, List.length_cons]
          omega
    · intro kvs first hj hc
      cases kvs with
      | nil => simp [membersCost]
      | cons q kvs =>
        obtain ⟨k, v⟩ := q
        simp only [membersJSON, Bool.and_eq_true] at hj
        simp only [membersCost] at hc ⊢
        obtain ⟨tv, htv⟩ := JSON.serialize_isSome v hj.1.1
        have h1 := ihV v tv hj.1.1 htv (by omega)
        have h2 := ihM kvs false hj.2 (by omega)
        simp only [JSON.serializeMembers, htv, List.length_append, List.length_cons]
        omega

theorem readCost_le (v : JSVal) (t : List Char) (hj : isJSON v = true)
    (hs : JSON.serialize v = some t) : readCost v ≤ 2 * t.length + 2 := by
  have := (costBound (readCost v)).1 v t hj hs (Nat.le_refl _)
  omega

/-- The text `JSON.stringify` writes for a JSON-representable value is not empty and
`JSON.parse` reads the value back from it, a negative zero as zero. -/
theorem JSON.parse_stringify (v : JSVal) (hj : isJSON v = true) :
    ∃ s, JSON.stringify v = some s ∧ s ≠ "" ∧ JSON.parse s = Except.ok (readBack v) := by
  obtain ⟨t, ht⟩ := JSON.serialize_isSome v hj
  obtain ⟨c, t1, htc, _⟩ := JSON.serialize_head v t ht
  refine ⟨String.mk t, by simp [JSON.stringify, ht], ?_, ?_⟩
  · intro h
    have := congrArg String.data h
    simp [htc] at this
  · have hfuel : readCost v ≤ 2 * (String.mk t).length + 2 := by
      have := readCost_le v t hj ht
      simpa [String.length] using this
    obtain ⟨f, hf⟩ : ∃ f, 2 * (String.mk t).length + 2 = f + 1 := ⟨_, rfl⟩
    have hV := (readsBack (f + 1)).1 v t [] hj ht (by omega) (by intro c cs h; cases h)
    rw [List.append_nil] at hV
    simp only [JSON.parse, hf, hV, skipWs]


/-! ## What reads back -/

theorem readBackFacts (n : Nat) : ReadBackFacts n := by
  induction n with
  | zero =>
    refine ⟨?_, ?_, ?_⟩
    · intro v hc
      have := readCost_pos v
      omega
    · intro xs hc _
      cases xs with
      | nil => rfl
      | cons x xs => simp only [elemsCost] at hc; omega
    · intro kvs hc _
      cases kvs with
      | nil => rfl
      | cons q kvs => obtain ⟨k, v⟩ := q; simp only [membersCost] at hc; omega
  | succ n ih =>
    obtain ⟨ihV, ihE, ihM⟩ := ih
    refine ⟨?_, ?_, ?_⟩
    · intro v hc
      cases v with
      | num x =>
        cases x with
        | finite f =>
          refine ⟨?_, rfl, rfl⟩
          intro h
          simp only [noNegZero, Bool.not_eq_true', Bool.and_eq_false_imp, beq_iff_eq] at h
          simp only [readBack]
          by_cases hm : f.m = 0
          · rw [if_pos hm]
            have hn := h hm
            congr 2
            cases f
            simp_all
          · rw [if_neg hm]
        | inf s => exact ⟨fun _ => rfl, rfl, rfl⟩
        | nan => exact ⟨fun _ => rfl, rfl, rfl⟩
      | arr xs =>
        refine ⟨?_, rfl, rfl⟩
        intro h
        simp only [noNegZero] at h
        simp only [readCost] at hc
        simp only [readBack, ihE xs (by omega) h]
      | obj kvs =>
        refine ⟨?_, rfl, rfl⟩
        intro h
        simp only [noNegZero] at h
        simp only [readCost] at hc
        simp only [readBack, ihM kvs (by omega) h]
      | undefined => exact ⟨fun _ => rfl, rfl, rfl⟩
      | null => exact ⟨fun _ => rfl, rfl, rfl⟩
      | bool b => exact ⟨fun _ => rfl, rfl, rfl⟩
      | str s => exact ⟨fun _ => rfl, rfl, rfl⟩
    · intro xs hc h
      cases xs with
      | nil => rfl
      | cons x xs =>
        simp only [noNegZeroList, Bool.and_eq_true] at h
        simp only [elemsCost] at hc
        simp only [readBackList, (ihV x (by omega)).1 h.1, ihE xs (by omega) h.2]
    · intro kvs hc h
      cases kvs with
      | nil => rfl
      | cons q kvs =>
        obtain ⟨k, v⟩ := q
        simp only [noNegZeroMembers, Bool.and_eq_true] at h
        simp only [membersCost] at hc
        simp only [readBackMembers, (ihV v (by omega)).1 h.1, ihM kvs (by omega) h.2]

theorem readBack_eq (v : JSVal) (h : noNegZero v = true) : readBack v = v :=
  ((readBackFacts (readCost v)).1 v (Nat.le_refl _)).1 h

theorem isNullish_readBack (v : JSVal) : isNullish (readBack v) = isNullish v :=
  ((readBackFacts (readCost v)).1 v (Nat.le_refl _)).2.1

theorem notNull_readBack (v : JSVal) : notNull (readBack v) = notNull v :=
  ((readBackFacts (readCost v)).1 v (Nat.le_refl _)).2.2

theorem readBackIdem (n : Nat) :
    (∀ v, readCost v ≤ n → readBack (readBack v) = readBack v)
    ∧ (∀ xs, elemsCost xs ≤ n → readBackList (readBackList xs) = readBackList xs)
    ∧ (∀ kvs, membersCost kvs ≤ n →
        readBackMembers (readBackMembers kvs) = readBackMembers kvs) := by
  induction n with
  | zero =>
    refine ⟨?_, ?_, ?_⟩
    · intro v hc
      have := readCost_pos v
      omega
    · intro xs hc
      cases xs with
      | nil => rfl
      | cons x xs => simp only [elemsCost] at hc; omega
    · intro kvs hc
      cases kvs with
      | nil => rfl
      | cons q kvs => obtain ⟨k, v⟩ := q; simp only [membersCost] at hc; omega
  | succ n ih =>
    obtain ⟨ihV, ihE, ihM⟩ := ih
    refine ⟨?_, ?_, ?_⟩
    · intro v hc
      cases v with
      | num x =>
        cases x with
        | finite f =>
          simp only [readBack]
          by_cases hm : f.m = 0
          · simp [hm]
          · simp [hm]
        | inf s => rfl
        | nan => rfl
      | arr xs =>
        simp only [readCost] at hc
        simp only [readBack, ihE xs (by omega)]
      | obj kvs =>
        simp only [readCost] at hc
        simp only [readBack, ihM kvs (by omega)]
      | undefined => rfl
      | null => rfl
      | bool b => rfl
      | str s => rfl
    · intro xs hc
      cases xs with
      | nil => rfl
      | cons x xs =>
        simp only [elemsCost] at hc
        simp only [readBackList, ihV x (by omega), ihE xs (by omega)]
    · intro kvs hc
      cases kvs with
      | nil => rfl
      | cons q kvs =>
        obtain ⟨k, v⟩ := q
        simp only [membersCost] at hc
        simp only [readBackMembers, ihV v (by omega), ihM kvs (by omega)]

theorem readBack_readBack (v : JSVal) : readBack (readBack v) = readBack v :=
  (readBackIdem (readCost v)).1 v (Nat.le_refl _)

theorem deepEqual_readBack (v : JSVal) : deepEqual (readBack v) v :=
  readBack_readBack v

/-! ## The adapter: reading and writing -/

theorem localStorageObj.setItem_ok (st : Store) (k : String) (v : JSVal)
    (hv : isNullish v = false) :
    localStorageObj.setItem st k v
      = (Except.ok (), localStorage.setItem st k (JSON.stringify v)) := by
  simp [localStorageObj.setItem, hv]

theorem localStorageObj.getItem_written (st : Store) (k : String) (v : JSVal)
    (hj : isJSON v = true) :
    localStorageObj.getItem (localStorage.setItem st k (JSON.stringify v)) k
      = Except.ok (readBack v) := by
  obtain ⟨s, hs, hne, hp⟩ := JSON.parse_stringify v hj
  simp [localStorageObj.getItem, localStorage.getItem, localStorage.setItem, hs, hne, hp]

theorem isStoredValue_iff (v : JSVal) :
    isStoredValue v = true ↔ isJSON v = true ∧ isNullish v = false := by
  simp [isStoredValue]

theorem notNull_of_not_nullish (v : JSVal) (h : isNullish v = false) : notNull v = true := by
  cases v <;> simp_all [isNullish, notNull]

/-- C1: for every store, key `k` and stored value `v` (JSON-representable, not
`null`/`undefined`; the falsy `0`, `false` and `""` are among them), `setItem(k, v)`
succeeds and `getItem(k)` then returns a value deep-equal to `v`, whatever `k` was bound
to before. The value returned is `v` with every negative zero read back as `0`, which is
`v` itself when `v` has no negative zero. -/
theorem setItem_getItem_roundtrip (st : Store) (k : String) (v : JSVal)
    (hv : isStoredValue v = true) :
    (localStorageObj.setItem st k v).1 = Except.ok ()
    ∧ localStorageObj.getItem (localStorageObj.setItem st k v).2 k = Except.ok (readBack v)
    ∧ deepEqual (readBack v) v
    ∧ (noNegZero v = true →
        localStorageObj.getItem (localStorageObj.setItem st k v).2 k = Except.ok v) := by
  obtain ⟨hj, hn⟩ := (isStoredValue_iff v).mp hv
  rw [localStorageObj.setItem_ok st k v hn]
  refine ⟨rfl, localStorageObj.getItem_written st k v hj, deepEqual_readBack v, ?_⟩
  intro h0
  rw [localStorageObj.getItem_written st k v hj, readBack_eq v h0]

set_option maxRecDepth 100000 in
/-- Witness of C1 at the fraction `0.1` inside an array with the falsy `0`, over a store
that already binds the key. -/
theorem setItem_getItem_roundtrip_witness :
    isStoredValue (JSVal.arr [JSVal.num (ofDecimal false 1 (-1)), JSVal.int 0]) = true
    ∧ (localStorageObj.setItem (localStorage.setItem localStorage.empty "k" (some "[1]"))
        "k" (JSVal.arr [JSVal.num (ofDecimal false 1 (-1)), JSVal.int 0])).1 = Except.ok ()
    ∧ localStorageObj.getItem
        (localStorageObj.setItem (localStorage.setItem localStorage.empty "k" (some "[1]"))
          "k" (JSVal.arr [JSVal.num (ofDecimal false 1 (-1)), JSVal.int 0])).2 "k"
        = Except.ok (readBack (JSVal.arr [JSVal.num (ofDecimal false 1 (-1)), JSVal.int 0]))
    ∧ deepEqual (readBack (JSVal.arr [JSVal.num (ofDecimal false 1 (-1)), JSVal.int 0]))
        (JSVal.arr [JSVal.num (ofDecimal false 1 (-1)), JSVal.int 0])
    ∧ (noNegZero (JSVal.arr [JSVal.num (ofDecimal false 1 (-1)), JSVal.int 0]) = true →
        localStorageObj.getItem
          (localStorageObj.setItem (localStorage.setItem localStorage.empty "k" (some "[1]"))
            "k" (JSVal.arr [JSVal.num (ofDecimal false 1 (-1)), JSVal.int 0])).2 "k"
          = Except.ok (JSVal.arr [JSVal.num (ofDecimal false 1 (-1)), JSVal.int 0])) :=
  ⟨by decide, setItem_getItem_roundtrip _ "k"
    (JSVal.arr [JSVal.num (ofDecimal false 1 (-1)), JSVal.int 0]) (by decide)⟩

/-- C2: for every store and key, `setItem(k, null)` and `setItem(k, undefined)` both
throw the error "Cannot store undefined or null value" and leave the store exactly as
it was. -/
theorem setItem_nullish_rejected (st : Store) (k : String) :
    localStorageObj.setItem st k JSVal.null
      = (Except.error (JSError.error "Cannot store undefined or null value"), st)
    ∧ localStorageObj.setItem st k JSVal.undefined
      = (Except.error (JSError.error "Cannot store undefined or null value"), st) :=
  ⟨rfl, rfl⟩

/-- C3: for every store, every key `k` without a binding and every callback `f`,
`updateItem(k, f)` throws the "does not exist" error and leaves the store as it was,
so `hasItem(k)` stays false. The callback may write to the store or throw: the outcome
does not depend on it, which is what not calling it means here. -/
theorem updateItem_missing_key (st : Store) (k : String) (f : Callback)
    (hk : localStorageObj.hasItem st k = false) :
    localStorageObj.updateItem st k f
      = (Except.error (JSError.error (localStorageObj.missingKeyMessage k)), st)
    ∧ localStorageObj.hasItem (localStorageObj.updateItem st k f).2 k = false := by
  have hnone : localStorage.getItem st k = none := by
    simpa [localStorageObj.hasItem] using hk
  have hu : localStorageObj.updateItem st k f
      = (Except.error (JSError.error (localStorageObj.missingKeyMessage k)), st) := by
    simp [localStorageObj.updateItem, localStorageObj.getItem, hnone, notNull]
  rw [hu]
  exact ⟨rfl, hk⟩

/-- Witness of C3 in the empty store, with a callback that would bind the key itself. -/
theorem updateItem_missing_key_witness :
    localStorageObj.hasItem localStorage.empty "nope" = false
    ∧ localStorageObj.updateItem localStorage.empty "nope"
        (fun v st => (Except.ok v, localStorage.setItem st "nope" (some "1")))
      = (Except.error (JSError.error "Item with key \"nope\" does not exist"),
          localStorage.empty)
    ∧ localStorageObj.hasItem
        (localStorageObj.updateItem localStorage.empty "nope"
          (fun v st => (Except.ok v, localStorage.setItem st "nope" (some "1")))).2
        "nope" = false :=
  ⟨rfl, updateItem_missing_key localStorage.empty "nope" _ rfl⟩

theorem localStorageObj.updateItem_written (st : Store) (k : String) (v : JSVal)
    (f : Callback) (u : JSVal) (st2 : Store)
    (hg : localStorageObj.getItem st k = Except.ok v) (hn : notNull v = true)
    (hf : f v st = (Except.ok u, st2)) (hu : isNullish u = false) :
    localStorageObj.updateItem st k f
      = (Except.ok (), localStorage.setItem st2 k (JSON.stringify u)) := by
  simp only [localStorageObj.updateItem, hg, hn, if_true, hf]
  exact localStorageObj.setItem_ok _ k u hu

/-- C4: for every store, key `k`, stored value `v` and callback `f`, pure or one that
writes to the store itself, whose result on the value read is a stored value `u`: after
`setItem(k, v)` the call `updateItem(k, f)` does not throw and `getItem(k)` then
returns `u` as it reads back, deep-equal to `u`. The value `f` receives is what
`getItem(k)` returns, `v` with a negative zero read as `0`; the falsy values `0`,
`false` and `""` of `v` are covered. -/
theorem updateItem_applies_callback (st : Store) (k : String) (v : JSVal)
    (f : Callback) (u : JSVal) (st2 : Store) (hv : isStoredValue v = true)
    (hf : f (readBack v) (localStorageObj.setItem st k v).2 = (Except.ok u, st2))
    (hu : isStoredValue u = true) :
    (localStorageObj.updateItem (localStorageObj.setItem st k v).2 k f).1 = Except.ok ()
    ∧ localStorageObj.getItem
        (localStorageObj.updateItem (localStorageObj.setItem st k v).2 k f).2 k
      = Except.ok (readBack u)
    ∧ deepEqual (readBack u) u := by
  obtain ⟨hj, hn⟩ := (isStoredValue_iff v).mp hv
  obtain ⟨hju, hnu⟩ := (isStoredValue_iff u).mp hu
  have hget : localStorageObj.getItem (localStorageObj.setItem st k v).2 k
      = Except.ok (readBack v) := by
    rw [localStorageObj.setItem_ok st k v hn]
    exact localStorageObj.getItem_written st k v hj
  have hnn : notNull (readBack v) = true := by
    rw [notNull_readBack]
    exact notNull_of_not_nullish v hn
  rw [localStorageObj.updateItem_written _ k (readBack v) f u st2 hget hnn hf hnu]
  exact ⟨rfl, localStorageObj.getItem_written _ k u hju, deepEqual_readBack u⟩

/-- Witness of C4: `5` updated by `x => x + 10` reads back as `15`. -/
theorem updateItem_applies_callback_witness :
    isStoredValue (JSVal.int 5) = true
    ∧ pureCallback (fun x => jsAdd x (JSVal.int 10)) (readBack (JSVal.int 5))
        (localStorageObj.setItem localStorage.empty "count" (JSVal.int 5)).2
      = (Except.ok (JSVal.int 15),
          (localStorageObj.setItem localStorage.empty "count" (JSVal.int 5)).2)
    ∧ isStoredValue (JSVal.int 15) = true
    ∧ (localStorageObj.updateItem (localStorageObj.setItem localStorage.empty "count"
          (JSVal.int 5)).2 "count" (pureCallback (fun x => jsAdd x (JSVal.int 10)))).1
        = Except.ok ()
    ∧ localStorageObj.getItem
        (localStorageObj.updateItem (localStorageObj.setItem localStorage.empty "count"
          (JSVal.int 5)).2 "count" (pureCallback (fun x => jsAdd x (JSVal.int 10)))).2
        "count" = Except.ok (readBack (JSVal.int 15))
    ∧ deepEqual (readBack (JSVal.int 15)) (JSVal.int 15) :=
  ⟨by decide, rfl, by decide,
    updateItem_applies_callback localStorage.empty "count" (JSVal.int 5)
      (pureCallback (fun x => jsAdd x (JSVal.int 10))) (JSVal.int 15) _ (by decide) rfl
      (by decide)⟩

/-! ## Integers as doubles -/

theorem JSVal.int_facts (n : Int) (h : SafeInt n) :
    ∃ x, JSVal.int n = JSVal.num (JSNumber.finite x) ∧ x.neg = decide (n < 0)
      ∧ (x.m : ℚ) * (2 : ℚ) ^ x.e = (n.natAbs : ℚ) ∧ x.isDouble = true := by
  obtain ⟨x, hx, h1, h2, h3⟩ := ofInt_exact n h
  exact ⟨x, by rw [JSVal.int, hx], h1, h2, h3⟩

theorem JSVal.int_mantissa (n : Int) (x : F64)
    (hv : (x.m : ℚ) * (2 : ℚ) ^ x.e = (n.natAbs : ℚ)) : x.m = 0 ↔ n = 0 := by
  constructor
  · intro hm
    rw [hm] at hv
    simp at hv
    exact Int.natAbs_eq_zero.mp (by exact_mod_cast hv.symm)
  · intro hn
    subst hn
    simp at hv
    rcases hv with hv | hv
    · exact_mod_cast hv
    · exact absurd hv (by positivity)

theorem isJSON_int (n : Int) (h : SafeInt n) : isJSON (JSVal.int n) = true := by
  obtain ⟨x, hx, _, _, hd⟩ := JSVal.int_facts n h
  rw [hx]
  simpa [isJSON] using hd

theorem isNullish_int (n : Int) (h : SafeInt n) : isNullish (JSVal.int n) = false := by
  obtain ⟨x, hx, _⟩ := JSVal.int_facts n h
  rw [hx]
  rfl

theorem isStoredValue_int (n : Int) (h : SafeInt n) : isStoredValue (JSVal.int n) = true :=
  (isStoredValue_iff _).mpr ⟨isJSON_int n h, isNullish_int n h⟩

theorem noNegZero_int (n : Int) (h : SafeInt n) : noNegZero (JSVal.int n) = true := by
  obtain ⟨x, hx, hs, hv, _⟩ := JSVal.int_facts n h
  rw [hx]
  simp only [noNegZero, Bool.not_eq_true', Bool.and_eq_false_imp, beq_iff_eq]
  intro hm
  have h0 := (JSVal.int_mantissa n x hv).mp hm
  rw [hs, h0]
  rfl

theorem readBack_int (n : Int) (h : SafeInt n) : readBack (JSVal.int n) = JSVal.int n :=
  readBack_eq _ (noNegZero_int n h)

theorem jsOr_int (n : Int) (h : SafeInt n) : jsOr (JSVal.int n) (JSVal.int 0) = JSVal.int n := by
  by_cases h0 : n = 0
  · subst h0; rfl
  · obtain ⟨x, hx, _, hv, _⟩ := JSVal.int_facts n h
    have hm : x.m ≠ 0 := fun hm => h0 ((JSVal.int_mantissa n x hv).mp hm)
    rw [hx]
    simp [jsOr, toBoolean, hm]

theorem jsAdd_int (n d : Int) (hn : SafeInt n) (hd : SafeInt d) :
    jsAdd (JSVal.int n) (JSVal.int d) = JSVal.int (n + d) := by
  simp only [jsAdd, JSVal.int, toPrimitive, isStr, toNumber, Bool.or_self, Bool.false_eq_true,
    if_false, JSNumber.add_ofInt n d hn hd]

theorem jsSub_int (n d : Int) (hn : SafeInt n) (hd : SafeInt d) :
    jsSub (JSVal.int n) (JSVal.int d) = JSVal.int (n - d) := by
  simp only [jsSub, JSVal.int, toNumber, JSNumber.sub_ofInt n d hn hd]

theorem toInt_int (n : Int) (h : SafeInt n) : (JSVal.int n).toInt? = some n := by
  obtain ⟨x, hx, hs, hv, _⟩ := JSVal.int_facts n h
  rw [hx]
  obtain ⟨neg, m, e⟩ := x
  simp only at hs hv
  simp only [JSVal.toInt?, F64.toInt?, F64.signed]
  by_cases he : 0 ≤ e
  · obtain ⟨k, rfl⟩ := Int.eq_ofNat_of_zero_le he
    rw [if_pos he]
    have hk : m * 2 ^ k = n.natAbs := by
      have : ((m * 2 ^ k : Nat) : ℚ) = (n.natAbs : ℚ) := by
        rw [← hv]; push_cast; simp
      exact_mod_cast this
    subst hs
    by_cases hn : n < 0
    · simp only [hn, decide_True, if_true, Int.toNat_ofNat, Option.some.injEq]
      rw [Int.neg_mul, ← Int.natCast_mul, hk]
      omega
    · simp only [hn, decide_False, Bool.false_eq_true, if_false, Int.toNat_ofNat,
        Option.some.injEq]
      rw [← Int.natCast_mul, hk]
      omega
  · obtain ⟨k, rfl⟩ := Int.eq_negSucc_of_lt_zero (not_le.mp he)
    rw [if_neg he]
    have hk : m = n.natAbs * 2 ^ (k + 1) := by
      have h2 : ((2 : ℚ) ^ (k + 1)) ≠ 0 := by positivity
      have : (m : ℚ) = (n.natAbs : ℚ) * 2 ^ (k + 1) := by
        rw [← hv, zpow_negSucc, mul_assoc, inv_mul_cancel₀ h2, mul_one]
      exact_mod_cast this
    have ht : (-Int.negSucc k).toNat = k + 1 := by
      rw [Int.neg_negSucc]
      rfl
    rw [ht, hk, Nat.mul_mod_left, if_pos rfl, Nat.mul_div_cancel _ (by positivity)]
    subst hs
    by_cases hn : n < 0
    · simp only [hn, decide_True, if_true, Option.some.injEq]
      omega
    · simp only [hn, decide_False, Bool.false_eq_true, if_false, Option.some.injEq]
      omega

/-! ## Counters -/

theorem HoldsInt.currentValue {st : Store} {k : String} {n : Int} (h : HoldsInt st k n)
    (hn : SafeInt n) :
    ∃ item, localStorageObj.getItem st k = Except.ok item
      ∧ jsOr item (JSVal.int 0) = JSVal.int n := by
  rcases h with ⟨_, hg⟩ | ⟨hk, rfl⟩
  · exact ⟨_, hg, jsOr_int n hn⟩
  · have hnone : localStorage.getItem st k = none := by
      simpa [localStorageObj.hasItem] using hk
    exact ⟨JSVal.null, by simp [localStorageObj.getItem, hnone], rfl⟩

theorem holdsInt_written (st : Store) (k : String) (n : Int) (hn : SafeInt n) :
    HoldsInt (localStorageObj.setItem st k (JSVal.int n)).2 k n := by
  left
  rw [localStorageObj.setItem_ok st k _ (isNullish_int n hn)]
  obtain ⟨s, hs, _, _⟩ := JSON.parse_stringify _ (isJSON_int n hn)
  refine ⟨?_, ?_⟩
  · simp [localStorageObj.hasItem, localStorage.getItem, localStorage.setItem, hs]
  · rw [localStorageObj.getItem_written st k _ (isJSON_int n hn), readBack_int n hn]

theorem localStorageObj.incrementItem_int (st : Store) (k : String) (n d : Int)
    (h : HoldsInt st k n) (hn : SafeInt n) (hd : SafeInt d) :
    localStorageObj.incrementItem st k (JSVal.int d)
      = (Except.ok (JSVal.int (n + d)),
          localStorage.setItem st k (JSON.stringify (JSVal.int (n + d)))) := by
  obtain ⟨item, hg, hor⟩ := h.currentValue hn
  have hdp : defaultParam (JSVal.int d) (JSVal.int 1) = JSVal.int d := rfl
  have hnl : isNullish (JSVal.int (n + d)) = false := rfl
  simp only [localStorageObj.incrementItem, hdp, hg, hor, jsAdd_int n d hn hd,
    localStorageObj.setItem_ok st k _ hnl]

theorem localStorageObj.decrementItem_int (st : Store) (k : String) (n d : Int)
    (h : HoldsInt st k n) (hn : SafeInt n) (hd : SafeInt d) :
    localStorageObj.decrementItem st k (JSVal.int d)
      = (Except.ok (JSVal.int (n - d)),
          localStorage.setItem st k (JSON.stringify (JSVal.int (n - d)))) := by
  obtain ⟨item, hg, hor⟩ := h.currentValue hn
  have hdp : defaultParam (JSVal.int d) (JSVal.int 1) = JSVal.int d := rfl
  have hnl : isNullish (JSVal.int (n - d)) = false := rfl
  simp only [localStorageObj.decrementItem, hdp, hg, hor, jsSub_int n d hn hd,
    localStorageObj.setItem_ok st k _ hnl]

theorem safeInt_neg (d : Int) (hd : SafeInt d) : SafeInt (-d) := by
  simpa [SafeInt] using hd

theorem int_above_safe :
    JSVal.int (9007199254740992 + 1) = JSVal.int 9007199254740992 :=
  have h1 : JSNumber.ofInt (9007199254740992 + 1)
      = JSNumber.finite ⟨false, 4503599627370496, 1⟩ := by decide
  have h2 : JSNumber.ofInt 9007199254740992
      = JSNumber.finite ⟨false, 4503599627370496, 1⟩ := by decide
  congrArg JSVal.num (h1.trans h2.symm)

theorem int_below_safe :
    JSVal.int (-9007199254740992 - 1) = JSVal.int (-9007199254740992) :=
  have h1 : JSNumber.ofInt (-9007199254740992 - 1)
      = JSNumber.finite ⟨true, 4503599627370496, 1⟩ := by decide
  have h2 : JSNumber.ofInt (-9007199254740992)
      = JSNumber.finite ⟨true, 4503599627370496, 1⟩ := by decide
  congrArg JSVal.num (h1.trans h2.symm)

/-- C5 as the claim words it fails at the edge of the integers a double holds: with
`2^53 = 9007199254740992` stored, `incrementItem(k, 1)` returns `2^53` and stores
`2^53`, not `2^53 + 1`. -/
theorem incrementItem_rounds_above_safe :
    HoldsInt (localStorageObj.setItem localStorage.empty "c"
        (JSVal.int 9007199254740992)).2 "c" 9007199254740992
    ∧ (localStorageObj.incrementItem (localStorageObj.setItem localStorage.empty "c"
          (JSVal.int 9007199254740992)).2 "c" (JSVal.int 1)).1
        = Except.ok (JSVal.int 9007199254740992)
    ∧ localStorageObj.getItem
        (localStorageObj.incrementItem (localStorageObj.setItem localStorage.empty "c"
          (JSVal.int 9007199254740992)).2 "c" (JSVal.int 1)).2 "c"
        = Except.ok (JSVal.int 9007199254740992)
    ∧ (JSVal.int 9007199254740992).toInt? = some 9007199254740992
    ∧ (JSVal.int 9007199254740992).toInt? ≠ some (9007199254740992 + 1) := by
  have hn : SafeInt 9007199254740992 := by decide
  have h := holdsInt_written localStorage.empty "c" 9007199254740992 hn
  have hi := localStorageObj.incrementItem_int _ "c" 9007199254740992 1 h hn (by decide)
  rw [int_above_safe] at hi
  refine ⟨h, ?_, ?_, toInt_int _ hn, ?_⟩
  · rw [hi]
  · rw [hi, localStorageObj.getItem_written _ "c" _ (isJSON_int _ hn), readBack_int _ hn]
  · rw [toInt_int _ hn]
    decide

/-- C5, amended to the integers a double holds exactly: for every store, key `k` and
integers `n`, `d` with `|n|`, `|d|` and `|n + d|` at most `2^53`, where `n` is the integer
stored under `k` and `n = 0` when `k` has no binding, `incrementItem(k, d)` returns the
number that is exactly `n + d` and `getItem(k)` then returns it (also when that is
`0`); with the delta omitted the call is `incrementItem(k, 1)`. -/
theorem incrementItem_adds (st : Store) (k : String) (n d : Int) (h : HoldsInt st k n)
    (hn : SafeInt n) (hd : SafeInt d) (hs : SafeInt (n + d)) :
    (localStorageObj.incrementItem st k (JSVal.int d)).1 = Except.ok (JSVal.int (n + d))
    ∧ (JSVal.int (n + d)).toInt? = some (n + d)
    ∧ localStorageObj.getItem (localStorageObj.incrementItem st k (JSVal.int d)).2 k
        = Except.ok (JSVal.int (n + d))
    ∧ localStorageObj.incrementItem st k JSVal.undefined
        = localStorageObj.incrementItem st k (JSVal.int 1) := by
  rw [localStorageObj.incrementItem_int st k n d h hn hd]
  refine ⟨rfl, toInt_int _ hs, ?_, rfl⟩
  rw [localStorageObj.getItem_written st k _ (isJSON_int _ hs), readBack_int _ hs]

/-- Witness of C5: on an unbound key `incrementItem(k, 1)` returns `1` and stores `1`. -/
theorem incrementItem_adds_witness :
    HoldsInt localStorage.empty "c" 0 ∧ SafeInt 0 ∧ SafeInt 1 ∧ SafeInt (0 + 1)
    ∧ (localStorageObj.incrementItem localStorage.empty "c" (JSVal.int 1)).1
        = Except.ok (JSVal.int (0 + 1))
    ∧ (JSVal.int (0 + 1)).toInt? = some (0 + 1)
    ∧ localStorageObj.getItem
        (localStorageObj.incrementItem localStorage.empty "c" (JSVal.int 1)).2 "c"
        = Except.ok (JSVal.int (0 + 1))
    ∧ localStorageObj.incrementItem localStorage.empty "c" JSVal.undefined
        = localStorageObj.incrementItem localStorage.empty "c" (JSVal.int 1) :=
  ⟨Or.inr ⟨rfl, rfl⟩, by decide, by decide, by decide,
    incrementItem_adds localStorage.empty "c" 0 1 (Or.inr ⟨rfl, rfl⟩) (by decide) (by decide)
      (by decide)⟩

/-- C6 as the claim words it fails at the edge of the integers a double holds: with
`-2^53 = -9007199254740992` stored, `decrementItem(k, 1)` returns `-2^53` and stores
`-2^53`, not `-2^53 - 1`. -/
theorem decrementItem_rounds_below_safe :
    HoldsInt (localStorageObj.setItem localStorage.empty "c"
        (JSVal.int (-9007199254740992))).2 "c" (-9007199254740992)
    ∧ (localStorageObj.decrementItem (localStorageObj.setItem localStorage.empty "c"
          (JSVal.int (-9007199254740992))).2 "c" (JSVal.int 1)).1
        = Except.ok (JSVal.int (-9007199254740992))
    ∧ localStorageObj.getItem
        (localStorageObj.decrementItem (localStorageObj.setItem localStorage.empty "c"
          (JSVal.int (-9007199254740992))).2 "c" (JSVal.int 1)).2 "c"
        = Except.ok (JSVal.int (-9007199254740992))
    ∧ (JSVal.int (-9007199254740992)).toInt? = some (-9007199254740992)
    ∧ (JSVal.int (-9007199254740992)).toInt? ≠ some (-9007199254740992 - 1) := by
  have hn : SafeInt (-9007199254740992) := by decide
  have h := holdsInt_written localStorage.empty "c" (-9007199254740992) hn
  have hi := localStorageObj.decrementItem_int _ "c" (-9007199254740992) 1 h hn (by decide)
  rw [int_below_safe] at hi
  refine ⟨h, ?_, ?_, toInt_int _ hn, ?_⟩
  · rw [hi]
  · rw [hi, localStorageObj.getItem_written _ "c" _ (isJSON_int _ hn), readBack_int _ hn]
  · rw [toInt_int _ hn]
    decide

/-- C6, amended to the integers a double holds exactly: for every store, key `k` and
integers `n`, `d` with `|n|`, `|d|` and `|n - d|` at most `2^53`, where `n` is the integer
stored under `k` and `n = 0` when `k` has no binding, `decrementItem(k, d)` returns the
number that is exactly `n - d` and stores it; its return value and final store are
those of `incrementItem(k, -d)`; with the delta omitted the call is
`decrementItem(k, 1)`. -/
theorem decrementItem_subtracts (st : Store) (k : String) (n d : Int)
    (h : HoldsInt st k n) (hn : SafeInt n) (hd : SafeInt d) (hs : SafeInt (n - d)) :
    (localStorageObj.decrementItem st k (JSVal.int d)).1 = Except.ok (JSVal.int (n - d))
    ∧ (JSVal.int (n - d)).toInt? = some (n - d)
    ∧ localStorageObj.getItem (localStorageObj.decrementItem st k (JSVal.int d)).2 k
        = Except.ok (JSVal.int (n - d))
    ∧ localStorageObj.decrementItem st k (JSVal.int d)
        = localStorageObj.incrementItem st k (JSVal.int (-d))
    ∧ localStorageObj.decrementItem st k JSVal.undefined
        = localStorageObj.decrementItem st k (JSVal.int 1) := by
  rw [localStorageObj.decrementItem_int st k n d h hn hd,
    localStorageObj.incrementItem_int st k n (-d) h hn (safeInt_neg d hd),
    ← Int.sub_eq_add_neg]
  refine ⟨rfl, toInt_int _ hs, ?_, rfl, rfl⟩
  rw [localStorageObj.getItem_written st k _ (isJSON_int _ hs), readBack_int _ hs]

/-- Witness of C6: with `5` stored, `decrementItem(k, 2)` returns `3` and stores `3`. -/
theorem decrementItem_subtracts_witness :
    HoldsInt (localStorageObj.setItem localStorage.empty "c" (JSVal.int 5)).2 "c" 5
    ∧ SafeInt 5 ∧ SafeInt 2 ∧ SafeInt (5 - 2)
    ∧ (localStorageObj.decrementItem
        (localStorageObj.setItem localStorage.empty "c" (JSVal.int 5)).2
        "c" (JSVal.int 2)).1 = Except.ok (JSVal.int (5 - 2))
    ∧ (JSVal.int (5 - 2)).toInt? = some (5 - 2)
    ∧ localStorageObj.getItem
        (localStorageObj.decrementItem
          (localStorageObj.setItem localStorage.empty "c" (JSVal.int 5)).2
          "c" (JSVal.int 2)).2 "c" = Except.ok (JSVal.int (5 - 2)) :=
  have h := holdsInt_written localStorage.empty "c" 5 (by decide)
  have w := decrementItem_subtracts _ "c" 5 2 h (by decide) (by decide) (by decide)
  ⟨h, by decide, by decide, by decide, w.1, w.2.1, w.2.2.1⟩

/-- C7: `hasItem(k)` is false in the empty store; for every store and every value `v`
other than `null` and `undefined` (so for `0`, `false` and `""` too) it is true right
after `setItem(k, v)`; and for every store it is false right after `removeItem(k)`. -/
theorem hasItem_existence (st : Store) (k : String) (v : JSVal)
    (hv : isNullish v = false) :
    localStorageObj.hasItem localStorage.empty k = false
    ∧ localStorageObj.hasItem (localStorageObj.setItem st k v).2 k = true
    ∧ localStorageObj.hasItem (localStorageObj.removeItem st k).2 k = false := by
  rw [localStorageObj.setItem_ok st k v hv]
  simp [localStorageObj.hasItem, localStorage.getItem, localStorage.empty,
    localStorage.setItem, localStorageObj.removeItem, localStorage.removeItem]

/-- Witness of C7 at the empty string, over a store that binds the key. -/
theorem hasItem_existence_witness :
    isNullish (JSVal.str "") = false
    ∧ localStorageObj.hasItem localStorage.empty "a" = false
    ∧ localStorageObj.hasItem
        (localStorageObj.setItem localStorage.empty "a" (JSVal.str "")).2 "a" = true
    ∧ localStorageObj.hasItem
        (localStorageObj.removeItem localStorage.empty "a").2 "a" = false :=
  ⟨rfl, hasItem_existence localStorage.empty "a" (JSVal.str "") rfl⟩

/-- C10: for every store, after `clear()` `hasItem(k)` is false and `getItem(k)` returns
`null` for every key `k`, and a second `clear()` leaves the same empty store. -/
theorem clear_empties (st : Store) (k : String) :
    localStorageObj.hasItem (localStorageObj.clear st).2 k = false
    ∧ localStorageObj.getItem (localStorageObj.clear st).2 k = Except.ok JSVal.null
    ∧ (localStorageObj.clear (localStorageObj.clear st).2).2 = (localStorageObj.clear st).2
    ∧ (localStorageObj.clear st).2 = localStorage.empty
    ∧ (localStorageObj.clear st).1 = Except.ok () :=
  ⟨rfl, rfl, rfl, rfl, rfl⟩

/-! ## Corrupt text and the store invariant -/

theorem localStorageObj.getItem_invalid_text (st : Store) (k text : String) (e : JSError)
    (hk : st k = some text) (hne : text ≠ "") (hp : JSON.parse text = Except.error e) :
    localStorageObj.getItem st k = Except.error e := by
  simp [localStorageObj.getItem, localStorage.getItem, hk, hne, hp]

/-- C8: with the empty string stored under a key, `getItem` returns `null` although
`JSON.parse` rejects that text and `hasItem` reports the key as present: the parse
error of the claim is not raised. -/
theorem getItem_empty_text_returns_null :
    JSON.parse "" = Except.error JSError.syntaxError
    ∧ localStorageObj.hasItem (localStorage.setItem localStorage.empty "k" (some "")) "k"
        = true
    ∧ localStorageObj.getItem (localStorage.setItem localStorage.empty "k" (some "")) "k"
        = Except.ok JSVal.null :=
  ⟨rfl, rfl, rfl⟩

/-- C9 as stated fails: after `setItem("k", "abc")` and `decrementItem("k")` the store
holds the text `null` under `k`, which deserializes to `null`. -/
theorem storeInvariant_broken_by_decrement :
    ¬ StoreInvariant (runCalls localStorage.empty
        [Call.setItem "k" (JSVal.str "abc"), Call.decrementItem "k" JSVal.undefined]) := by
  intro h
  obtain ⟨v, hp, hn, _⟩ := h "k" "null" rfl
  have hnull : JSON.parse "null" = Except.ok JSVal.null := rfl
  rw [hnull] at hp
  cases hp
  exact absurd hn (by decide)

theorem JSON.parse_of_stringify (v : JSVal) (text : String) (hj : isJSON v = true)
    (hs : JSON.stringify v = some text) :
    text ≠ "" ∧ JSON.parse text = Except.ok (readBack v) := by
  obtain ⟨s, hs1, hne, hp⟩ := JSON.parse_stringify v hj
  rw [hs] at hs1
  cases hs1
  exact ⟨hne, hp⟩

theorem WrittenValues.getItem_bound {st : Store} (h : WrittenValues st) (k text : String)
    (hk : st k = some text) :
    ∃ v, notNull v = true ∧ JSON.parse text = Except.ok v
      ∧ localStorageObj.getItem st k = Except.ok v := by
  obtain ⟨v, hv, hs⟩ := h k text hk
  obtain ⟨hj, hn⟩ := (isStoredValue_iff v).mp hv
  obtain ⟨hne, hp⟩ := JSON.parse_of_stringify v text hj hs
  refine ⟨readBack v, ?_, hp, by simp [localStorageObj.getItem, localStorage.getItem, hk, hne, hp]⟩
  rw [notNull_readBack]
  exact notNull_of_not_nullish v hn

theorem WrittenValues.storeInvariant {st : Store} (h : WrittenValues st) :
    StoreInvariant st := by
  intro k text hk
  obtain ⟨v, hv, hp, hg⟩ := h.getItem_bound k text hk
  exact ⟨v, hp, hv, hg⟩

theorem WrittenValues.getItem_any {st : Store} (h : WrittenValues st) (k : String) :
    ∃ item, localStorageObj.getItem st k = Except.ok item := by
  cases hk : st k with
  | none =>
    exact ⟨JSVal.null, by simp [localStorageObj.getItem, localStorage.getItem, hk]⟩
  | some text =>
    obtain ⟨v, _, _, hg⟩ := h.getItem_bound k text hk
    exact ⟨v, hg⟩

theorem WrittenValues.write {st : Store} (h : WrittenValues st) (k : String) (v : JSVal)
    (hv : isStoredValue v = true) :
    WrittenValues (localStorage.setItem st k (JSON.stringify v)) := by
  intro k1 text hk1
  by_cases e : k1 = k
  · subst e
    obtain ⟨s, hs, _, _⟩ := JSON.parse_stringify v ((isStoredValue_iff v).mp hv).1
    refine ⟨v, hv, ?_⟩
    simp only [localStorage.setItem, if_true, hs, Option.getD_some, Option.some.injEq] at hk1
    rw [hs, hk1]
  · simp only [localStorage.setItem, e, if_false] at hk1
    exact h k1 text hk1

theorem WrittenValues.setItem {st : Store} (h : WrittenValues st) (k : String) (v : JSVal)
    (hv : (isNullish v || isJSON v) = true) :
    WrittenValues (localStorageObj.setItem st k v).2 := by
  cases hn : isNullish v with
  | true => simpa [localStorageObj.setItem, hn] using h
  | false =>
    rw [localStorageObj.setItem_ok st k v hn]
    have hj : isJSON v = true := by simpa [hn] using hv
    exact h.write k v ((isStoredValue_iff v).mpr ⟨hj, hn⟩)

theorem isNullish_jsAdd (a b : JSVal) : isNullish (jsAdd a b) = false := by
  unfold jsAdd
  simp only []
  split <;> rfl

theorem isNullish_jsSub (a b : JSVal) : isNullish (jsSub a b) = false := rfl

theorem WrittenValues.run {st : Store} (h : WrittenValues st) (c : Call)
    (hc : c.admissible st) : WrittenValues (c.run st) := by
  cases c with
  | setItem key value => exact h.setItem key value hc
  | updateItem key f =>
    obtain ⟨item, hg⟩ := h.getItem_any key
    simp only [Call.run, localStorageObj.updateItem, hg, pureCallback]
    split
    · exact h.setItem key (f item) (hc item hg)
    · exact h
  | incrementItem key d =>
    obtain ⟨item, hg⟩ := h.getItem_any key
    have hj := hc item hg
    have hnn := isNullish_jsAdd (jsOr item (JSVal.int 0)) (defaultParam d (JSVal.int 1))
    simp only [Call.run, localStorageObj.incrementItem, hg,
      localStorageObj.setItem_ok st key _ hnn]
    exact h.write key _ ((isStoredValue_iff _).mpr ⟨hj, hnn⟩)
  | decrementItem key d =>
    obtain ⟨item, hg⟩ := h.getItem_any key
    have hj := hc item hg
    have hnn := isNullish_jsSub (jsOr item (JSVal.int 0)) (defaultParam d (JSVal.int 1))
    simp only [Call.run, localStorageObj.decrementItem, hg,
      localStorageObj.setItem_ok st key _ hnn]
    exact h.write key _ ((isStoredValue_iff _).mpr ⟨hj, hnn⟩)
  | removeItem key =>
    intro k1 text hk1
    simp only [Call.run, localStorageObj.removeItem, localStorage.removeItem] at hk1
    split at hk1
    · cases hk1
    · exact h k1 text hk1
  | clear =>
    intro k1 text hk1
    simp [Call.run, localStorageObj.clear, localStorage.clear] at hk1

theorem WrittenValues.runCalls (calls : List Call) :
    ∀ st, WrittenValues st → Admissible st calls → WrittenValues (runCalls st calls) := by
  induction calls with
  | nil => intro st h _; exact h
  | cons c cs ih =>
    intro st h ha
    exact ih (c.run st) (h.run c ha.1) ha.2

theorem writtenValues_empty : WrittenValues localStorage.empty := by
  intro k text hk
  simp [localStorage.empty] at hk

theorem Call.admissible_set (st : Store) (key : String) (v : JSVal)
    (hv : (isNullish v || isJSON v) = true) : (Call.setItem key v).admissible st := hv

theorem Call.getItem_set (st : Store) (key : String) (v : JSVal)
    (hv : isStoredValue v = true) (h0 : noNegZero v = true) :
    localStorageObj.getItem (Call.run st (Call.setItem key v)) key = Except.ok v := by
  obtain ⟨hj, hn⟩ := (isStoredValue_iff v).mp hv
  rw [Call.run, localStorageObj.setItem_ok st key v hn,
    localStorageObj.getItem_written st key v hj, readBack_eq v h0]

theorem Call.admissible_update (st : Store) (key : String) (f : JSVal → JSVal) (v : JSVal)
    (hg : localStorageObj.getItem st key = Except.ok v)
    (hv : (isNullish (f v) || isJSON (f v)) = true) :
    (Call.updateItem key f).admissible st := by
  intro x hx
  rw [hg] at hx
  cases hx
  exact hv

theorem Call.admissible_increment (st : Store) (key : String) (d v : JSVal)
    (hg : localStorageObj.getItem st key = Except.ok v)
    (hv : isJSON (jsAdd (jsOr v (JSVal.int 0)) (defaultParam d (JSVal.int 1))) = true) :
    (Call.incrementItem key d).admissible st := by
  intro x hx
  rw [hg] at hx
  cases hx
  exact hv

theorem Call.admissible_decrement (st : Store) (key : String) (d v : JSVal)
    (hg : localStorageObj.getItem st key = Except.ok v)
    (hv : isJSON (jsSub (jsOr v (JSVal.int 0)) (defaultParam d (JSVal.int 1))) = true) :
    (Call.decrementItem key d).admissible st := by
  intro x hx
  rw [hg] at hx
  cases hx
  exact hv

/-- C9, amended: in every store reached from the empty store by a sequence of `setItem`,
`updateItem`, `incrementItem`, `decrementItem`, `removeItem` and `clear` calls, failed
calls included, in which every value a call writes is JSON-representable or is the
`null` or `undefined` that `setItem` rejects (the argument of `setItem`, the result of
the callback, the sum or the difference computed from the value read), every text held
is valid JSON that deserializes to a value other than `null`, and `getItem` returns
that value. -/
theorem storeInvariant_reachable (calls : List Call)
    (h : Admissible localStorage.empty calls) :
    StoreInvariant (runCalls localStorage.empty calls) :=
  (WrittenValues.runCalls calls localStorage.empty writtenValues_empty h).storeInvariant

set_option maxRecDepth 100000 in
/-- Witness of the amended C9 on a sequence with a rejected write, an update of a falsy
value, an increment of a string and a decrement of a fraction. -/
theorem storeInvariant_reachable_witness :
    Admissible localStorage.empty
      [Call.setItem "a" (JSVal.int 0), Call.setItem "a" JSVal.null,
        Call.updateItem "a" (fun x => JSVal.arr [x]), Call.setItem "s" (JSVal.str "abc"),
        Call.incrementItem "s" JSVal.undefined,
        Call.setItem "n" (JSVal.num (ofDecimal false 25 (-1))),
        Call.decrementItem "n" (JSVal.int 2), Call.removeItem "zz"]
    ∧ StoreInvariant (runCalls localStorage.empty
      [Call.setItem "a" (JSVal.int 0), Call.setItem "a" JSVal.null,
        Call.updateItem "a" (fun x => JSVal.arr [x]), Call.setItem "s" (JSVal.str "abc"),
        Call.incrementItem "s" JSVal.undefined,
        Call.setItem "n" (JSVal.num (ofDecimal false 25 (-1))),
        Call.decrementItem "n" (JSVal.int 2), Call.removeItem "zz"]) :=
  have h : Admissible localStorage.empty
      [Call.setItem "a" (JSVal.int 0), Call.setItem "a" JSVal.null,
        Call.updateItem "a" (fun x => JSVal.arr [x]), Call.setItem "s" (JSVal.str "abc"),
        Call.incrementItem "s" JSVal.undefined,
        Call.setItem "n" (JSVal.num (ofDecimal false 25 (-1))),
        Call.decrementItem "n" (JSVal.int 2), Call.removeItem "zz"] :=
    ⟨Call.admissible_set _ "a" _ (by decide), Call.admissible_set _ "a" _ (by decide),
      Call.admissible_update _ "a" _ (JSVal.int 0) rfl (by decide),
      Call.admissible_set _ "s" _ (by decide),
      Call.admissible_increment _ "s" _ (JSVal.str "abc") rfl (by decide),
      Call.admissible_set _ "n" _ (by decide),
      Call.admissible_decrement _ "n" _ (JSVal.num (ofDecimal false 25 (-1)))
        (Call.getItem_set _ "n" _ (by decide) (by decide)) (by decide),
      trivial, trivial⟩
  ⟨h, storeInvariant_reachable _ h⟩

/-! ## Removal and the existence probe -/

theorem localStorage.removeItem_unbound (st : Store) (k : String) (h : st k = none) :
    localStorage.removeItem st k = st := by
  funext k1
  simp only [localStorage.removeItem]
  split
  · subst_vars; exact h.symm
  · rfl

theorem localStorage.removeItem_removeItem (st : Store) (k : String) :
    localStorage.removeItem (localStorage.removeItem st k) k = localStorage.removeItem st k := by
  funext k1
  simp only [localStorage.removeItem]
  split <;> rfl

/-- C11: for every store and key `k`, `removeItem(k)` returns without throwing; on a key
with no binding it leaves the store as it was; and a second `removeItem(k)` leaves the
store of the first. -/
theorem removeItem_idempotent (st : Store) (k : String) :
    (localStorageObj.removeItem st k).1 = Except.ok ()
    ∧ (localStorageObj.hasItem st k = false → (localStorageObj.removeItem st k).2 = st)
    ∧ (localStorageObj.removeItem (localStorageObj.removeItem st k).2 k).1 = Except.ok ()
    ∧ (localStorageObj.removeItem (localStorageObj.removeItem st k).2 k).2
        = (localStorageObj.removeItem st k).2 := by
  refine ⟨rfl, ?_, rfl, localStorage.removeItem_removeItem st k⟩
  intro h
  have hnone : st k = none := by
    simpa [localStorageObj.hasItem, localStorage.getItem] using h
  exact localStorage.removeItem_unbound st k hnone

/-- Witness of C11 on a key that was never set. -/
theorem removeItem_idempotent_witness :
    localStorageObj.hasItem localStorage.empty "never" = false
    ∧ (localStorageObj.removeItem localStorage.empty "never").1 = Except.ok ()
    ∧ (localStorageObj.removeItem localStorage.empty "never").2 = localStorage.empty :=
  have w := removeItem_idempotent localStorage.empty "never"
  ⟨rfl, w.1, w.2.1 rfl⟩

/-- C12: for every store and key `k`, `hasItem(k)` is true exactly when the store holds
a text under `k`, whatever that text is: it is true over the empty string and over
text that is not JSON. In the embedding `hasItem` is a total function of the store
that returns a boolean and no store: it neither throws nor writes. -/
theorem hasItem_iff_bound (st : Store) (k : String) :
    (localStorageObj.hasItem st k = true ↔ ∃ text, localStorage.getItem st k = some text)
    ∧ (∀ text, localStorageObj.hasItem (localStorage.setItem st k (some text)) k = true)
    ∧ localStorageObj.hasItem (localStorage.setItem st k (some "")) k = true
    ∧ localStorageObj.hasItem (localStorage.setItem st k (some "[1,")) k = true
    ∧ JSON.parse "[1," = Except.error JSError.syntaxError := by
  refine ⟨?_, ?_, ?_, ?_, rfl⟩
  · simp [localStorageObj.hasItem, Option.isSome_iff_exists]
  all_goals simp [localStorageObj.hasItem, localStorage.getItem, localStorage.setItem]

/-! ## Absence read through `getItem` -/

theorem localStorageObj.getItem_bound_text (st : Store) (k text : String) (v : JSVal)
    (hk : st k = some text) (hp : JSON.parse text = Except.ok v) :
    localStorageObj.getItem st k = Except.ok v := by
  have hne : text ≠ "" := by
    intro h
    subst h
    exact absurd hp (by simp [show JSON.parse "" = Except.error JSError.syntaxError from rfl])
  simp [localStorageObj.getItem, localStorage.getItem, hk, hne, hp]

theorem localStorageObj.updateItem_bound_nonnull (st : Store) (k text : String) (v : JSVal)
    (f : Callback) (hk : st k = some text) (hp : JSON.parse text = Except.ok v)
    (hv : notNull v = true) :
    localStorageObj.updateItem st k f
      = match f v st with
        | (Except.error e, st1) => (Except.error e, st1)
        | (Except.ok updatedItem, st1) => localStorageObj.setItem st1 k updatedItem := by
  simp only [localStorageObj.updateItem, localStorageObj.getItem_bound_text st k text v hk hp,
    hv, if_true]

/-- C13: with the text `null` under a key, which is valid JSON, `hasItem` is true and
yet `updateItem` throws the "does not exist" error for every callback and leaves the
store as it was; the adapter itself reaches such a store by `setItem("k", "abc")` and
`decrementItem("k")`. -/
theorem updateItem_null_text_reported_missing (st : Store) (k : String) (f : Callback) :
    JSON.parse "null" = Except.ok JSVal.null
    ∧ localStorageObj.hasItem (localStorage.setItem st k (some "null")) k = true
    ∧ localStorageObj.updateItem (localStorage.setItem st k (some "null")) k f
        = (Except.error (JSError.error (localStorageObj.missingKeyMessage k)),
            localStorage.setItem st k (some "null"))
    ∧ runCalls localStorage.empty
        [Call.setItem "k" (JSVal.str "abc"), Call.decrementItem "k" JSVal.undefined] "k"
        = some "null" := by
  refine ⟨rfl, ?_, ?_, rfl⟩
  · simp [localStorageObj.hasItem, localStorage.getItem, localStorage.setItem]
  · have hg : localStorageObj.getItem (localStorage.setItem st k (some "null")) k
        = Except.ok JSVal.null :=
      localStorageObj.getItem_bound_text _ k "null" JSVal.null
        (by simp [localStorage.setItem]) rfl
    simp [localStorageObj.updateItem, hg, notNull]

theorem localStorageObj.incrementItem_string (st : Store) (k s : String) (x : JSNumber)
    (hg : localStorageObj.getItem st k = Except.ok (JSVal.str s)) (hs : s ≠ "") :
    localStorageObj.incrementItem st k (JSVal.num x)
      = (Except.ok (JSVal.str (String.mk (s.data ++ x.toChars))),
          localStorage.setItem st k
            (JSON.stringify (JSVal.str (String.mk (s.data ++ x.toChars))))) := by
  simp [localStorageObj.incrementItem, defaultParam, hg, jsOr, toBoolean, hs, jsAdd,
    toPrimitive, isStr, jsToChars, localStorageObj.setItem, isNullish]

theorem localStorageObj.incrementItem_falsy_string (st : Store) (k : String) (d : Int)
    (hd : SafeInt d)
    (hg : localStorageObj.getItem st k = Except.ok (JSVal.str "")) :
    localStorageObj.incrementItem st k (JSVal.int d)
      = (Except.ok (JSVal.int d), localStorage.setItem st k (JSON.stringify (JSVal.int d))) := by
  have hdp : defaultParam (JSVal.int d) (JSVal.int 1) = JSVal.int d := rfl
  have hor : jsOr (JSVal.str "") (JSVal.int 0) = JSVal.int 0 := rfl
  have hnl : isNullish (JSVal.int d) = false := rfl
  have hadd := jsAdd_int 0 d (by decide) hd
  rw [Int.zero_add] at hadd
  simp only [localStorageObj.incrementItem, hdp, hg, hor, hadd,
    localStorageObj.setItem_ok st k _ hnl]

theorem localStorageObj.getItem_string (st : Store) (k s : String) :
    localStorageObj.getItem (localStorageObj.setItem st k (JSVal.str s)).2 k
      = Except.ok (JSVal.str s) := by
  rw [localStorageObj.setItem_ok st k (JSVal.str s) rfl]
  exact localStorageObj.getItem_written st k _ rfl

set_option maxRecDepth 100000 in
/-- C14 as the claim words it fails at the empty string: with `""` stored under a key,
`incrementItem(k, 5)` returns and stores the number `5`, not the string `"5"` that
`"" + 5` is: the stored empty string is replaced by `0` like an absent value. -/
theorem incrementItem_empty_string_as_zero :
    localStorageObj.getItem
        (localStorageObj.setItem localStorage.empty "k" (JSVal.str "")).2 "k"
      = Except.ok (JSVal.str "")
    ∧ jsAdd (JSVal.str "") (JSVal.int 5) = JSVal.str "5"
    ∧ localStorageObj.incrementItem
        (localStorageObj.setItem localStorage.empty "k" (JSVal.str "")).2 "k" (JSVal.int 5)
      = (Except.ok (JSVal.int 5),
          localStorage.setItem
            (localStorageObj.setItem localStorage.empty "k" (JSVal.str "")).2 "k"
            (JSON.stringify (JSVal.int 5)))
    ∧ JSON.stringify (JSVal.int 5) = some "5"
    ∧ (JSVal.int 5).toInt? = some 5 :=
  ⟨localStorageObj.getItem_string localStorage.empty "k" "", rfl,
    localStorageObj.incrementItem_falsy_string _ "k" 5 (by decide)
      (localStorageObj.getItem_string localStorage.empty "k" ""),
    by decide, by decide⟩

/-- C14, amended to the strings other than the empty one: for every key `k` holding a
string `s` that is not empty and every number `d`, `incrementItem(k, d)` does not raise;
it returns and stores the string `s` followed by the text of `d` (the decimal text of
an integer such as `5`), the result of the coercion `s + d`. -/
theorem incrementItem_string_concat (st : Store) (k s : String) (x : JSNumber)
    (hg : localStorageObj.getItem st k = Except.ok (JSVal.str s)) (hs : s ≠ "") :
    (localStorageObj.incrementItem st k (JSVal.num x)).1
      = Except.ok (jsAdd (JSVal.str s) (JSVal.num x))
    ∧ jsAdd (JSVal.str s) (JSVal.num x) = JSVal.str (String.mk (s.data ++ x.toChars))
    ∧ localStorageObj.getItem (localStorageObj.incrementItem st k (JSVal.num x)).2 k
      = Except.ok (JSVal.str (String.mk (s.data ++ x.toChars))) := by
  rw [localStorageObj.incrementItem_string st k s x hg hs]
  have ha : jsAdd (JSVal.str s) (JSVal.num x)
      = JSVal.str (String.mk (s.data ++ x.toChars)) := by
    simp [jsAdd, toPrimitive, isStr, jsToChars]
  refine ⟨by rw [ha], ha, ?_⟩
  exact localStorageObj.getItem_written st k _ rfl

set_option maxRecDepth 100000 in
/-- Witness of C14: with `"abc"` stored, `incrementItem(k, 5)` returns and stores
`"abc5"`. -/
theorem incrementItem_string_concat_witness :
    localStorageObj.getItem (localStorageObj.setItem localStorage.empty "k"
        (JSVal.str "abc")).2 "k" = Except.ok (JSVal.str "abc")
    ∧ "abc" ≠ ""
    ∧ (JSNumber.ofInt 5).toChars = "5".data
    ∧ (localStorageObj.incrementItem (localStorageObj.setItem localStorage.empty "k"
        (JSVal.str "abc")).2 "k" (JSVal.num (JSNumber.ofInt 5))).1
      = Except.ok (jsAdd (JSVal.str "abc") (JSVal.num (JSNumber.ofInt 5)))
    ∧ jsAdd (JSVal.str "abc") (JSVal.num (JSNumber.ofInt 5))
      = JSVal.str (String.mk ("abc".data ++ (JSNumber.ofInt 5).toChars))
    ∧ localStorageObj.getItem
        (localStorageObj.incrementItem (localStorageObj.setItem localStorage.empty "k"
          (JSVal.str "abc")).2 "k" (JSVal.num (JSNumber.ofInt 5))).2 "k"
      = Except.ok (JSVal.str (String.mk ("abc".data ++ (JSNumber.ofInt 5).toChars))) :=
  ⟨localStorageObj.getItem_string _ "k" "abc", by decide, by decide,
    incrementItem_string_concat _ "k" "abc" (JSNumber.ofInt 5)
      (localStorageObj.getItem_string _ "k" "abc") (by decide)⟩

/-! ## Frame -/

theorem sameAt_of_eq {st1 st2 : Store} {k : String} (h : st1 k = st2 k) : SameAt st1 st2 k := by
  refine ⟨h, ?_, ?_⟩
  · simp [localStorageObj.hasItem, localStorage.getItem, h]
  · simp [localStorageObj.getItem, localStorage.getItem, h]

theorem localStorageObj.setItem_frame (st : Store) (k k1 : String) (v : JSVal)
    (hne : k1 ≠ k) : (localStorageObj.setItem st k v).2 k1 = st k1 := by
  unfold localStorageObj.setItem
  split
  · rfl
  · simp [localStorage.setItem, hne]

theorem localStorageObj.removeItem_frame (st : Store) (k k1 : String) (hne : k1 ≠ k) :
    (localStorageObj.removeItem st k).2 k1 = st k1 := by
  simp [localStorageObj.removeItem, localStorage.removeItem, hne]

theorem localStorageObj.updateItem_frame (st : Store) (k k1 : String) (f : Callback)
    (hne : k1 ≠ k) (hf : ∀ x s, (f x s).2 k1 = s k1) :
    (localStorageObj.updateItem st k f).2 k1 = st k1 := by
  unfold localStorageObj.updateItem
  split
  · rfl
  · split
    · rename_i currentItem _ _
      have h1 := hf currentItem st
      split
      · rename_i e st1 he
        rw [he] at h1
        exact h1
      · rename_i u st1 he
        rw [he] at h1
        rw [localStorageObj.setItem_frame st1 k k1 u hne]
        exact h1
    · rfl

theorem localStorageObj.incrementItem_frame (st : Store) (k k1 : String) (d : JSVal)
    (hne : k1 ≠ k) : (localStorageObj.incrementItem st k d).2 k1 = st k1 := by
  unfold localStorageObj.incrementItem
  split
  · rfl
  · simp only []
    split
    · rename_i e st1 he
      have h := congrArg (fun o => o.2 k1) he
      simp only [] at h
      exact h.symm.trans (localStorageObj.setItem_frame st k k1 _ hne)
    · rename_i u st1 he
      have h := congrArg (fun o => o.2 k1) he
      simp only [] at h
      exact h.symm.trans (localStorageObj.setItem_frame st k k1 _ hne)

theorem localStorageObj.decrementItem_frame (st : Store) (k k1 : String) (d : JSVal)
    (hne : k1 ≠ k) : (localStorageObj.decrementItem st k d).2 k1 = st k1 := by
  unfold localStorageObj.decrementItem
  split
  · rfl
  · simp only []
    split
    · rename_i e st1 he
      have h := congrArg (fun o => o.2 k1) he
      simp only [] at h
      exact h.symm.trans (localStorageObj.setItem_frame st k k1 _ hne)
    · rename_i u st1 he
      have h := congrArg (fun o => o.2 k1) he
      simp only [] at h
      exact h.symm.trans (localStorageObj.setItem_frame st k k1 _ hne)

/-- C15: for every store and distinct keys `k` and `k1`, each of `setItem(k, v)`,
`removeItem(k)`, `updateItem(k, f)`, `incrementItem(k, d)` and `decrementItem(k, d)`,
whether it returns or throws, leaves the text under `k1` as it was, so `hasItem(k1)`
and `getItem(k1)` are unchanged. The callback is any callback that does not itself
write under `k1`, the pure ones among them. `getItem` and `hasItem` are functions of
the store that return no store: they write nothing. -/
theorem frame_other_key (st : Store) (k k1 : String) (v d : JSVal) (f : Callback)
    (hne : k1 ≠ k) (hf : ∀ x s, (f x s).2 k1 = s k1) :
    SameAt (localStorageObj.setItem st k v).2 st k1
    ∧ SameAt (localStorageObj.removeItem st k).2 st k1
    ∧ SameAt (localStorageObj.updateItem st k f).2 st k1
    ∧ SameAt (localStorageObj.incrementItem st k d).2 st k1
    ∧ SameAt (localStorageObj.decrementItem st k d).2 st k1 :=
  ⟨sameAt_of_eq (localStorageObj.setItem_frame st k k1 v hne),
    sameAt_of_eq (localStorageObj.removeItem_frame st k k1 hne),
    sameAt_of_eq (localStorageObj.updateItem_frame st k k1 f hne hf),
    sameAt_of_eq (localStorageObj.incrementItem_frame st k k1 d hne),
    sameAt_of_eq (localStorageObj.decrementItem_frame st k k1 d hne)⟩

/-- Witness of C15: with `"b"` bound, calls on `"a"` that succeed and calls that throw
leave `"b"` alone. -/
theorem frame_other_key_witness :
    "b" ≠ "a"
    ∧ SameAt (localStorageObj.setItem (localStorage.setItem localStorage.empty "b" (some "2"))
        "a" JSVal.null).2 (localStorage.setItem localStorage.empty "b" (some "2")) "b"
    ∧ SameAt (localStorageObj.updateItem (localStorage.setItem localStorage.empty "b" (some "2"))
        "a" (pureCallback (fun x => x))).2
        (localStorage.setItem localStorage.empty "b" (some "2")) "b"
    ∧ SameAt (localStorageObj.incrementItem
        (localStorage.setItem localStorage.empty "b" (some "2")) "a" JSVal.undefined).2
        (localStorage.setItem localStorage.empty "b" (some "2")) "b" :=
  have w := frame_other_key (localStorage.setItem localStorage.empty "b" (some "2")) "a" "b"
    JSVal.null JSVal.undefined (pureCallback (fun x => x)) (by decide) (fun _ _ => rfl)
  ⟨by decide, w.1, w.2.2.1, w.2.2.2.1⟩

/-- C16: for every store, key `k` bound to a value `v` other than `null` and callback
`f` with `f(v)` equal to `null` or `undefined`, `updateItem(k, f)` throws the
"Cannot store undefined or null value" error and leaves the store as it was, so
`getItem(k)` still returns `v`. -/
theorem updateItem_rejected_result (st : Store) (k : String) (v : JSVal)
    (f : JSVal → JSVal) (hg : localStorageObj.getItem st k = Except.ok v)
    (hv : notNull v = true) (hf : isNullish (f v) = true) :
    localStorageObj.updateItem st k (pureCallback f)
      = (Except.error (JSError.error "Cannot store undefined or null value"), st)
    ∧ localStorageObj.getItem (localStorageObj.updateItem st k (pureCallback f)).2 k
        = Except.ok v := by
  have hu : localStorageObj.updateItem st k (pureCallback f)
      = (Except.error (JSError.error "Cannot store undefined or null value"), st) := by
    simp [localStorageObj.updateItem, hg, hv, pureCallback, localStorageObj.setItem, hf]
  rw [hu]
  exact ⟨rfl, hg⟩

/-- Witness of C16: `5` stays stored when the callback returns `undefined`. -/
theorem updateItem_rejected_result_witness :
    localStorageObj.getItem (localStorage.setItem localStorage.empty "k" (some "5")) "k"
      = Except.ok (JSVal.int 5)
    ∧ localStorageObj.updateItem (localStorage.setItem localStorage.empty "k" (some "5")) "k"
        (pureCallback (fun _ => JSVal.undefined))
      = (Except.error (JSError.error "Cannot store undefined or null value"),
          localStorage.setItem localStorage.empty "k" (some "5"))
    ∧ localStorageObj.getItem
        (localStorageObj.updateItem (localStorage.setItem localStorage.empty "k" (some "5"))
          "k" (pureCallback (fun _ => JSVal.undefined))).2 "k"
      = Except.ok (JSVal.int 5) :=
  ⟨rfl, updateItem_rejected_result _ "k" (JSVal.int 5) (fun _ => JSVal.undefined) rfl rfl rfl⟩

theorem holdsInt_stored (st : Store) (k : String) (n : Int) (hn : SafeInt n) :
    HoldsInt (localStorage.setItem st k (JSON.stringify (JSVal.int n))) k n := by
  have h := holdsInt_written st k n hn
  rwa [localStorageObj.setItem_ok st k _ (isNullish_int n hn)] at h

theorem int_one_above_safe :
    JSVal.int (1 + 9007199254740992) = JSVal.int 9007199254740992 :=
  have h1 : JSNumber.ofInt (1 + 9007199254740992)
      = JSNumber.finite ⟨false, 4503599627370496, 1⟩ := by decide
  have h2 : JSNumber.ofInt 9007199254740992
      = JSNumber.finite ⟨false, 4503599627370496, 1⟩ := by decide
  congrArg JSVal.num (h1.trans h2.symm)

/-- C17 as the claim words it fails where the sum leaves the integers a double holds:
with `1` stored, `incrementItem(k, 2^53)` followed by `decrementItem(k, 2^53)` returns
`0` and leaves `getItem(k)` at `0`, not at `1`. -/
theorem increment_then_decrement_loses_one :
    HoldsInt (localStorageObj.setItem localStorage.empty "c" (JSVal.int 1)).2 "c" 1
    ∧ (localStorageObj.incrementItem
        (localStorageObj.setItem localStorage.empty "c" (JSVal.int 1)).2 "c"
        (JSVal.int 9007199254740992)).1 = Except.ok (JSVal.int 9007199254740992)
    ∧ (localStorageObj.decrementItem
        (localStorageObj.incrementItem
          (localStorageObj.setItem localStorage.empty "c" (JSVal.int 1)).2 "c"
          (JSVal.int 9007199254740992)).2 "c" (JSVal.int 9007199254740992)).1
      = Except.ok (JSVal.int 0)
    ∧ localStorageObj.getItem
        (localStorageObj.decrementItem
          (localStorageObj.incrementItem
            (localStorageObj.setItem localStorage.empty "c" (JSVal.int 1)).2 "c"
            (JSVal.int 9007199254740992)).2 "c" (JSVal.int 9007199254740992)).2 "c"
      = Except.ok (JSVal.int 0)
    ∧ (JSVal.int 0).toInt? = some 0
    ∧ (JSVal.int 0).toInt? ≠ some 1 := by
  have h1 : SafeInt 1 := by decide
  have hd : SafeInt 9007199254740992 := by decide
  have h0 : SafeInt 0 := by decide
  have h := holdsInt_written localStorage.empty "c" 1 h1
  have hi := localStorageObj.incrementItem_int _ "c" 1 9007199254740992 h h1 hd
  rw [int_one_above_safe] at hi
  have hdec := localStorageObj.decrementItem_int _ "c" 9007199254740992 9007199254740992
    (holdsInt_stored (localStorageObj.setItem localStorage.empty "c" (JSVal.int 1)).2 "c"
      9007199254740992 hd) hd hd
  rw [Int.sub_self] at hdec
  refine ⟨h, by rw [hi], ?_, ?_, toInt_int 0 h0, ?_⟩
  · rw [hi, hdec]
  · rw [hi, hdec, localStorageObj.getItem_written _ "c" _ (isJSON_int 0 h0), readBack_int 0 h0]
  · rw [toInt_int 0 h0]
    decide

/-- C17, amended to the integers a double holds exactly: for every store, key `k` and
integers `n`, `d` with `|n|`, `|d|` and `|n + d|` at most `2^53`, where `n` is the integer
stored under `k` and `n = 0` when `k` has no binding, `incrementItem(k, d)` followed by
`decrementItem(k, d)` returns `n` and leaves `getItem(k)` at `n`; when `k` had no
binding the pair does not give the store back: `k` ends bound to `0` and `hasItem(k)`
is true. -/
theorem increment_then_decrement (st : Store) (k : String) (n d : Int)
    (h : HoldsInt st k n) (hn : SafeInt n) (hd : SafeInt d) (hs : SafeInt (n + d)) :
    (localStorageObj.decrementItem (localStorageObj.incrementItem st k (JSVal.int d)).2 k
        (JSVal.int d)).1 = Except.ok (JSVal.int n)
    ∧ (JSVal.int n).toInt? = some n
    ∧ localStorageObj.getItem
        (localStorageObj.decrementItem (localStorageObj.incrementItem st k (JSVal.int d)).2 k
          (JSVal.int d)).2 k = Except.ok (JSVal.int n)
    ∧ (localStorageObj.hasItem st k = false →
        localStorageObj.hasItem
          (localStorageObj.decrementItem (localStorageObj.incrementItem st k (JSVal.int d)).2
            k (JSVal.int d)).2 k = true
        ∧ localStorageObj.getItem
          (localStorageObj.decrementItem (localStorageObj.incrementItem st k (JSVal.int d)).2
            k (JSVal.int d)).2 k = Except.ok (JSVal.int 0)
        ∧ (localStorageObj.decrementItem (localStorageObj.incrementItem st k (JSVal.int d)).2
            k (JSVal.int d)).2 ≠ st) := by
  rw [localStorageObj.incrementItem_int st k n d h hn hd]
  simp only []
  rw [localStorageObj.decrementItem_int _ k (n + d) d (holdsInt_stored st k (n + d) hs) hs hd]
  rw [Int.add_sub_cancel n d]
  have hget : ∀ s0 : Store, localStorageObj.getItem
      (localStorage.setItem s0 k (JSON.stringify (JSVal.int n))) k
        = Except.ok (JSVal.int n) := by
    intro s0
    rw [localStorageObj.getItem_written s0 k _ (isJSON_int n hn), readBack_int n hn]
  have hhas : ∀ s0 : Store, localStorageObj.hasItem
      (localStorage.setItem s0 k (JSON.stringify (JSVal.int n))) k = true := by
    intro s0
    rcases holdsInt_stored s0 k n hn with ⟨hb, _⟩ | ⟨hb, _⟩
    · exact hb
    · obtain ⟨s, hs1, _, _⟩ := JSON.parse_stringify _ (isJSON_int n hn)
      simp [localStorageObj.hasItem, localStorage.getItem, localStorage.setItem, hs1] at hb
  refine ⟨rfl, toInt_int n hn, hget _, ?_⟩
  intro hk
  have hn0 : n = 0 := by
    rcases h with ⟨hb, _⟩ | ⟨_, hn0⟩
    · rw [hk] at hb; cases hb
    · exact hn0
  refine ⟨hhas _, ?_, ?_⟩
  · have := hget (localStorage.setItem st k (JSON.stringify (JSVal.int (n + d))))
    rw [hn0] at this ⊢
    exact this
  · intro e
    have h1 := hhas (localStorage.setItem st k (JSON.stringify (JSVal.int (n + d))))
    have e1 : localStorage.setItem (localStorage.setItem st k
        (JSON.stringify (JSVal.int (n + d)))) k (JSON.stringify (JSVal.int n)) = st := e
    rw [e1, hk] at h1
    cases h1

/-- Witness of C17 on an unbound key: the pair returns `0` and leaves `"c"` bound. -/
theorem increment_then_decrement_witness :
    HoldsInt localStorage.empty "c" 0 ∧ SafeInt 0 ∧ SafeInt 4 ∧ SafeInt (0 + 4)
    ∧ (localStorageObj.decrementItem
        (localStorageObj.incrementItem localStorage.empty "c" (JSVal.int 4)).2 "c"
        (JSVal.int 4)).1 = Except.ok (JSVal.int 0)
    ∧ localStorageObj.hasItem
        (localStorageObj.decrementItem
          (localStorageObj.incrementItem localStorage.empty "c" (JSVal.int 4)).2 "c"
          (JSVal.int 4)).2 "c" = true
    ∧ (localStorageObj.decrementItem
        (localStorageObj.incrementItem localStorage.empty "c" (JSVal.int 4)).2 "c"
        (JSVal.int 4)).2 ≠ localStorage.empty :=
  have h : HoldsInt localStorage.empty "c" 0 := Or.inr ⟨rfl, rfl⟩
  have w := increment_then_decrement localStorage.empty "c" 0 4 h (by decide) (by decide)
    (by decide)
  ⟨h, by decide, by decide, by decide, w.1, (w.2.2.2 rfl).1, (w.2.2.2 rfl).2.2⟩

end Azula
